import Mathlib

/-!
Verification of the module dependency resolver and incremental library
loader of a browser playground for a WASM-compiled language runtime.

The definitions below are shallow embeddings of the TypeScript source:

* `src/lean-loader.ts` — manifest loading, import parsing, transitive
  dependency resolution (`getTransitiveDeps`), artifact path expansion
  (`getRequiredOleanPaths`), artifact validation (`isValidOlean`),
  batched fetching (`fetchOleanFiles`), and the flat file listing
  (`fetchCompleteFileList`);
* `src/utils.ts` — the tar decoder (`parseTar`).

JavaScript `Map`s/objects are modelled by association lists (first match
wins, as for `Map.get`), JS `Set`s by `Finset String` (only membership,
insertion and union are observable in this code), byte buffers by
`List Nat`, and the recursion of `getTransitiveDeps` — whose JS version
recurses on a mutable visited set — by an explicit fuel parameter;
fuel exhaustion yields `none`, and a sufficiency theorem shows that
enough fuel always exists.
-/

namespace LeanLoader

/-- `ModuleInfo` from `lean-loader.ts`: canonical artifact path and the
declared direct imports of one module. -/
structure ModuleInfo where
  path : String
  imports : List String
deriving DecidableEq

/-- The `modules` field of the manifest: a mapping from module name to
`ModuleInfo`, modelled as an association list (keys are unique canonical
names in the real manifest; lookup takes the first match, as `obj[key]`
does for a JS object). -/
abbrev Modules := List (String × ModuleInfo)

/-- The manifest of `lean-loader.ts`: version, generation timestamp and
the module table. -/
structure Manifest where
  version : String
  generated : String
  modules : Modules
deriving DecidableEq

/-- `modules[moduleName]` — JS object property lookup. -/
def lookupMod (mods : Modules) (m : String) : Option ModuleInfo :=
  match mods with
  | [] => none
  | p :: rest => if p.1 = m then some p.2 else lookupMod rest m

/-- `set.add(x)` on a JS `Set`, modelled as an insertion-ordered
duplicate-free list: append `x` unless already present (a re-added
element keeps its original position, as in JS). -/
def addMod (s : List String) (x : String) : List String :=
  if x ∈ s then s else s ++ [x]

/-- `for (const y of t) s.add(y)` — add every element of `t` in order. -/
def addAll (s : List String) (t : List String) : List String :=
  t.foldl addMod s

/-- The per-call memoization cache of `getTransitiveDeps`
(`Map<string, Set<string>>`); the stored sets use the same list model. -/
abbrev Cache := List (String × List String)

/-- `cache.get(m)` — first matching entry, as for a JS `Map` (entries are
never overwritten by the code, so first-match agrees with `Map` updates). -/
def lookupC (c : Cache) (m : String) : Option (List String) :=
  match c with
  | [] => none
  | p :: rest => if p.1 = m then some p.2 else lookupC rest m

/-- The pair of mutable collections threaded through `getTransitiveDeps`:
the memoization `cache` and the `visited` set. -/
structure DepState where
  cache : Cache
  visited : List String
deriving DecidableEq

/-- Shallow embedding of `getTransitiveDeps` (lean-loader.ts:73-114).
The JS function mutates `cache` and `visited` in place; here both are
threaded through a `DepState`.  The extra fuel argument bounds the
recursion depth; `none` means the fuel ran out (a sufficiency theorem
shows a fuel of `|universe| + 1` never runs out).  Branches, in source
order: a visited module returns its cached set (or an empty set) without
touching the state; otherwise the module is marked visited; a cached
module returns its cache entry; a module absent from the manifest is a
leaf; otherwise the `for (const imp of moduleInfo.imports)` loop — a
fold over the import list — skips the literal `'all'`, adds each
other import to `deps` and merges in its transitive dependencies, and the
result is cached. -/
def getTransitiveDeps : Nat → String → Modules → DepState → Option (List String × DepState)
  | 0, _, _, _ => none
  | fuel + 1, moduleName, mods, st =>
    if moduleName ∈ st.visited then
      some ((lookupC st.cache moduleName).getD [], st)
    else
      let st1 : DepState := ⟨st.cache, addMod st.visited moduleName⟩
      match lookupC st1.cache moduleName with
      | some d => some (d, st1)
      | none =>
        match lookupMod mods moduleName with
        | none => some ([], st1)
        | some info =>
          match info.imports.foldl (fun acc imp =>
              match acc with
              | none => none
              | some (deps, stAcc) =>
                if imp = "all" then some (deps, stAcc)
                else
                  match getTransitiveDeps fuel imp mods stAcc with
                  | none => none
                  | some (t, stNext) => some (addAll (addMod deps imp) t, stNext))
              (some ([], st1)) with
          | none => none
          | some (deps, st2) => some (deps, ⟨(moduleName, deps) :: st2.cache, st2.visited⟩)

/-- The import loop of `getTransitiveDeps`, factored out: fold the step
of the `for (const imp of moduleInfo.imports)` loop over a list of
module names, starting from accumulated dependencies `deps` in state `st`. -/
def goImports (fuel : Nat) (imps : List String) (mods : Modules) (st : DepState)
    (deps : List String) : Option (List String × DepState) :=
  imps.foldl (fun acc imp =>
    match acc with
    | none => none
    | some (depsAcc, stAcc) =>
      if imp = "all" then some (depsAcc, stAcc)
      else
        match getTransitiveDeps fuel imp mods stAcc with
        | none => none
        | some (t, stNext) => some (addAll (addMod depsAcc imp) t, stNext))
    (some (deps, st))

/-- The seed loop shared by `getRequiredOleanPaths` (lean-loader.ts:124-130)
and `analyzeCodeDependencies` (lean-loader.ts:160-166): for each import,
add it to `allModules`, resolve its transitive dependencies — with a fresh
`visited` set per seed (the JS default argument) but a shared cache — and
merge them in. -/
def resolveLoop : Nat → List String → Modules → Cache → List String → Option (List String × Cache)
  | _, [], _, c, acc => some (acc, c)
  | fuel, s :: rest, mods, c, acc =>
    match getTransitiveDeps fuel s mods ⟨c, []⟩ with
    | none => none
    | some (deps, st') => resolveLoop fuel rest mods st'.cache (addAll (addMod acc s) deps)

/-- `mod.replace(/\./g, '/')` — every occurrence of the single
character `.` replaced by `/`, i.e. a character map. -/
def basePathOf (mod : String) : String :=
  String.mk (mod.data.map (fun c => if c = '.' then '/' else c))

/-- The path-emission loop of `getRequiredOleanPaths` (lean-loader.ts:134-140):
for each module of `allModules` — iterated in `Set` insertion order, as
the list model records it — push the base path with the `.olean`,
`.olean.server` and `.olean.private` suffixes, in that order. -/
def expandModulePaths (l : List String) : List String :=
  match l with
  | [] => []
  | mod :: rest =>
    (basePathOf mod ++ ".olean") ::
    (basePathOf mod ++ ".olean.server") ::
    (basePathOf mod ++ ".olean.private") :: expandModulePaths rest

/-- Lexicographic comparison of character lists by code point — the
comparison `paths.sort()` uses (JS compares UTF-16 code units, which
agrees with code points on the ASCII paths produced here). -/
def charListLe : List Char → List Char → Bool
  | [], _ => true
  | _ :: _, [] => false
  | a :: as, b :: bs =>
    if a.toNat < b.toNat then true
    else if b.toNat < a.toNat then false
    else charListLe as bs

/-- String comparison for `paths.sort()`. -/
def strLe (a b : String) : Bool :=
  charListLe a.data b.data

/-- Insert a string into an already sorted list. -/
def insertSorted (x : String) : List String → List String
  | [] => [x]
  | y :: rest => if strLe x y then x :: y :: rest else y :: insertSorted x rest

/-- `paths.sort()` — JS sorts the array lexicographically (all elements
here are strings); modelled by insertion sort under `strLe`. -/
def sortStrings (l : List String) : List String :=
  l.foldr insertSorted []

/-- Sortedness under the JS string comparison. -/
def StrSorted (l : List String) : Prop :=
  List.Pairwise (fun a b => strLe a b = true) l

/-- Shallow embedding of `getRequiredOleanPaths` (lean-loader.ts:118-143):
resolve the transitive closure of the given imports against the manifest's
module table, emit the three candidate paths per closure module, and sort. -/
def getRequiredOleanPaths (fuel : Nat) (imports : List String) (mods : Modules) : Option (List String) :=
  match resolveLoop fuel imports mods [] [] with
  | none => none
  | some (allModules, _) => some (sortStrings (expandModulePaths allModules))

/-- The JS whitespace class `\s` (also the class trimmed by
`String.prototype.trim`): tab, LF, VT, FF, CR, space, NBSP, BOM, the
Unicode space separators and the line separators. -/
def isJsSpaceChar (c : Char) : Bool :=
  c.toNat == 9 || c.toNat == 10 || c.toNat == 11 || c.toNat == 12 || c.toNat == 13 ||
  c.toNat == 32 || c.toNat == 160 || c.toNat == 65279 || c.toNat == 0x1680 ||
  (0x2000 ≤ c.toNat && c.toNat ≤ 0x200A) || c.toNat == 0x2028 || c.toNat == 0x2029 ||
  c.toNat == 0x202F || c.toNat == 0x205F || c.toNat == 0x3000

/-- `code.split('\n')` on the character list: split at every newline,
keeping empty pieces. -/
def splitLines : List Char → List (List Char)
  | [] => [[]]
  | c :: rest =>
    match splitLines rest with
    | [] => [[]]
    | line :: lines => if c = '\n' then [] :: line :: lines else (c :: line) :: lines

/-- `line.trim()`: drop JS whitespace from both ends. -/
def trimJs (cs : List Char) : List Char :=
  ((cs.dropWhile isJsSpaceChar).reverse.dropWhile isJsSpaceChar).reverse

/-- One line of `parseUserImports`: after `line.trim()`, try to match
`^(?:public\s+)?(?:meta\s+)?import\s+(\S+)`.  `matchKeyword w cs` consumes
the literal word `w` followed by at least one whitespace character (and
all following whitespace, as the greedy `\s+` does before a token that
cannot start with whitespace). -/
def matchKeyword (w : List Char) (cs : List Char) : Option (List Char) :=
  if cs.take w.length = w then
    match cs.drop w.length with
    | [] => none
    | c :: rest =>
      if isJsSpaceChar c then some ((c :: rest).dropWhile isJsSpaceChar) else none
  else none

/-- The regex `^(?:public\s+)?(?:meta\s+)?import\s+(\S+)` applied to a
trimmed line: optional `public`, optional `meta`, then `import` and a
nonempty run of non-whitespace characters (the captured module name).
No backtracking is needed: if `public\s+` (resp. `meta\s+`) matches, the
line cannot also start with the later literals. -/
def matchImportLine (cs0 : List Char) : Option String :=
  let cs1 := (matchKeyword "public".data cs0).getD cs0
  let cs2 := (matchKeyword "meta".data cs1).getD cs1
  match matchKeyword "import".data cs2 with
  | none => none
  | some rest =>
    let tok := rest.takeWhile (fun c => ¬ isJsSpaceChar c)
    if tok.isEmpty then none else some (String.mk tok)

/-- Shallow embedding of `parseUserImports` (lean-loader.ts:39-57): split
on newlines, trim each line, skip `--` comment lines, and collect the
module names of matching import lines in order. -/
def parseUserImports (code : String) : List String :=
  (splitLines code.data).foldr
    (fun line acc =>
      let trimmed := trimJs line
      if trimmed.take 2 = ['-', '-'] then acc
      else
        match matchImportLine trimmed with
        | some m => m :: acc
        | none => acc)
    []

/-- Byte-for-byte substring search on character lists. -/
def charsContain (pat : List Char) : List Char → Bool
  | [] => pat.isEmpty
  | c :: rest => ((c :: rest).take pat.length == pat) || charsContain pat rest

/-- `code.includes('prelude')` — substring containment. -/
def containsPrelude (code : String) : Bool :=
  charsContain "prelude".data code.data

/-- Shallow embedding of `detectImplicitImports` (lean-loader.ts:60-70):
the implicit prelude import `Init` unless the source mentions `prelude`. -/
def detectImplicitImports (code : String) : List String :=
  if containsPrelude code then [] else ["Init"]

/-- `[...new Set([...a, ...b])]` — order-preserving deduplication keeping
first occurrences. -/
def dedupFirst (l : List String) : List String :=
  match l with
  | [] => []
  | x :: rest => x :: (dedupFirst rest).filter (fun y => y ≠ x)

/-- The `DependencySet` record returned by `analyzeCodeDependencies`. -/
structure DependencySet where
  explicitImports : List String
  implicitImports : List String
  allModules : List String
  oleanPaths : List String
deriving DecidableEq

/-- The seed set of one analysis: explicit imports followed by implicit
ones, deduplicated order-preservingly (`[...new Set([...])]`). -/
def seedsOf (code : String) : List String :=
  dedupFirst (parseUserImports code ++ detectImplicitImports code)

/-- Shallow embedding of `analyzeCodeDependencies` (lean-loader.ts:146-176):
parse the explicit and implicit imports, resolve the closure of the seed
set (fresh cache), and separately recompute the olean paths through
`getRequiredOleanPaths` (which performs its own, independent closure
traversal with its own fresh cache, exactly as the source does). -/
def analyzeCodeDependencies (fuel : Nat) (code : String) (mods : Modules) : Option DependencySet :=
  let explicitImports := parseUserImports code
  let implicitImports := detectImplicitImports code
  let allImports := dedupFirst (explicitImports ++ implicitImports)
  match resolveLoop fuel allImports mods [] [] with
  | none => none
  | some (allModules, _) =>
    match getRequiredOleanPaths fuel allImports mods with
    | none => none
    | some oleanPaths =>
      some ⟨explicitImports, implicitImports, sortStrings allModules, oleanPaths⟩

/-- `OLEAN_MAGIC` (lean-loader.ts:179): the bytes of `"olea"`. -/
def OLEAN_MAGIC : List Nat := [0x6f, 0x6c, 0x65, 0x61]

/-- Shallow embedding of `isValidOlean` (lean-loader.ts:182-189): reject
buffers shorter than 32 bytes, then compare the first 4 bytes with the
magic. -/
def isValidOlean (data : List Nat) : Bool :=
  if data.length < 32 then false
  else (List.range 4).all (fun i => data.getD i 0 = OLEAN_MAGIC.getD i 0)

/-! ### `loadManifest` — sequential retry semantics

`loadManifest` (lean-loader.ts:21-36) keeps two module-level variables:
`manifest` (set by the `.then` handler on success only) and
`manifestPromise` (set to the fetch promise chain and never cleared).
For reasoning about *sequential* calls — each call completing before the
next begins — a settled promise is just its outcome, so the state stores
`Option (Except String Manifest)` for `manifestPromise`. -/

/-- The module-level state of the manifest loader. -/
structure LoaderState where
  manifest : Option Manifest
  manifestPromise : Option (Except String Manifest)

/-- What the network would produce for a manifest fetch: a parsed
manifest, or a failure (non-ok response — the code throws
`Failed to load lean-manifest.json` — or a network/parse error). -/
abbrev FetchManifestOutcome := Except String Manifest

/-- One sequential call of `loadManifest`: returns the (settled) result,
the updated module state, and whether a network fetch was issued.
Branches in source order: a stored `manifest` is returned directly; a
stored `manifestPromise` is returned (no fetch!); otherwise the fetch is
issued and the promise chain stores the manifest on success — and on
failure stores nothing, leaving the rejected promise in
`manifestPromise`. -/
def loadManifest (st : LoaderState) (net : FetchManifestOutcome) :
    FetchManifestOutcome × LoaderState × Bool :=
  match st.manifest with
  | some m => (Except.ok m, st, false)
  | none =>
    match st.manifestPromise with
    | some r => (r, st, false)
    | none =>
      match net with
      | Except.ok m => (Except.ok m, ⟨some m, some (Except.ok m)⟩, true)
      | Except.error e => (Except.error e, ⟨none, some (Except.error e)⟩, true)

/-! ### Concurrent duplicate calls — promise-level model

For claim C4 the in-flight window matters, so promises are modelled
explicitly: a heap of promises (`none` = pending), and the body of each
function split at its suspension points.  `loadManifest` has no `await`
at all — its whole body runs synchronously and returns a promise — while
`fetchCompleteFileList` suspends at `await fetch(...)` *before* writing
`fileListCache`. -/

/-- A promise heap: index = promise identity, `none` = still pending. -/
abbrev PromiseHeap := List (Option (Except String Manifest))

/-- The module-level state of `loadManifest` when promises are explicit:
`manifestPromise` holds the *identity* of the stored promise. -/
structure MLState where
  manifest : Option Manifest
  manifestPromise : Option Nat
deriving DecidableEq

/-- Global environment for the concurrent `loadManifest` scenario. -/
structure MEnv where
  heap : PromiseHeap
  st : MLState
  fetchCount : Nat

/-- One synchronous execution of the `loadManifest` body
(lean-loader.ts:21-36).  Returns the id of the promise the caller awaits.
With a stored `manifest`, the caller gets an already-resolved promise;
with a stored `manifestPromise`, that same promise (no fetch); otherwise
a fresh pending promise is allocated for the fetch chain (`fetchCount`
grows), stored in `manifestPromise`, and returned. -/
def loadManifestCall (env : MEnv) : Nat × MEnv :=
  match env.st.manifest with
  | some m => (env.heap.length, ⟨env.heap ++ [some (Except.ok m)], env.st, env.fetchCount⟩)
  | none =>
    match env.st.manifestPromise with
    | some p => (p, env)
    | none =>
      (env.heap.length,
       ⟨env.heap ++ [none], ⟨none, some env.heap.length⟩, env.fetchCount + 1⟩)

/-- The fetch of promise `p` completes with `outcome`: the promise
settles, and the `.then` handler of lean-loader.ts:30-33 stores the
manifest on success (on failure nothing is stored and the rejected
promise stays in `manifestPromise`). -/
def settleManifestFetch (env : MEnv) (p : Nat) (outcome : Except String Manifest) : MEnv :=
  ⟨env.heap.set p (some outcome),
   ⟨match outcome with
     | Except.ok m => some m
     | Except.error _ => env.st.manifest,
    env.st.manifestPromise⟩,
   env.fetchCount⟩

/-- The state of `fetchCompleteFileList` (lean-loader.ts:259-276): the
`fileListCache` singleton, plus a count of fetches issued. -/
structure FLEnv where
  fileListCache : Option (List String)
  fetchCount : Nat
deriving DecidableEq

/-- The synchronous prefix of one `fetchCompleteFileList` call, up to its
first suspension point `await fetch(...)`: a populated `fileListCache` is
returned immediately (`some list`, no fetch); otherwise the fetch is
issued and the call suspends (`none`) — crucially, *nothing* is written
to the state before the `await`. -/
def fetchCompleteFileListStart (env : FLEnv) : Option (List String) × FLEnv :=
  match env.fileListCache with
  | some l => (some l, env)
  | none => (none, ⟨env.fileListCache, env.fetchCount + 1⟩)

/-- Resumption of a suspended `fetchCompleteFileList` call whose fetch
returned an ok JSON array `l`: the cache is written and `l` returned. -/
def fetchCompleteFileListResume (env : FLEnv) (l : List String) : List String × FLEnv :=
  (l, ⟨some l, env.fetchCount⟩)

/-- The interleaving of claim C4 for `fetchCompleteFileList`: a fresh
state, call 1 starts and suspends at its fetch, call 2 starts while call
1 is still in flight, then both fetches complete with the same listing
`l`.  Returns the total number of fetches issued and the two results. -/
def flConcurrentScenario (l : List String) : Nat × List String × List String :=
  let env0 : FLEnv := ⟨none, 0⟩
  let r1 := fetchCompleteFileListStart env0
  let r2 := fetchCompleteFileListStart r1.2
  let c1 := fetchCompleteFileListResume r2.2 l
  let c2 := fetchCompleteFileListResume c1.2 l
  (c2.2.fetchCount, c1.1, c2.1)

/-- The interleaving of claim C4 for `loadManifest`: a fresh environment,
two calls back to back (the body is fully synchronous, so any concurrent
interleaving orders the two bodies one after the other), then the single
fetch settles with `outcome`.  Returns the promise ids awaited by the two
callers, the final environment. -/
def mlConcurrentScenario (outcome : Except String Manifest) : Nat × Nat × MEnv :=
  let env0 : MEnv := ⟨[], ⟨none, none⟩, 0⟩
  let c1 := loadManifestCall env0
  let c2 := loadManifestCall c1.2
  (c1.1, c2.1, settleManifestFetch c2.2 c1.1 outcome)

/-! ### `fetchOleanFiles` — batched fetching with progress

`fetchOleanFiles` (lean-loader.ts:193-248) drains a shared queue with 20
workers.  Under the single-threaded event loop each queued path is
`shift`ed exactly once by exactly one worker, and after its fetch attempt
completes the worker runs `loaded++; onProgress(loaded, total)` with no
suspension in between, so across *every* interleaving: each path is
attempted once, `onProgress` fires once per path with the successive
values `1, 2, …, total`, and the result map collects exactly the
successful validated fetches.  The model therefore folds over the queue
in order, recording the result map and the list of
`(loaded, total)` progress invocations. -/

/-- Outcome of fetching one path: an ok response with its bytes, a non-ok
response (e.g. 404), or a thrown network error. -/
inductive FetchOutcome where
  | ok (data : List Nat)
  | notOk
  | netError
deriving DecidableEq

/-- `files.set(path, data)` — JS `Map.set`: replace in place if present,
append otherwise. -/
def setAssoc (files : List (String × List Nat)) (path : String) (data : List Nat) :
    List (String × List Nat) :=
  match files with
  | [] => [(path, data)]
  | p :: rest => if p.1 = path then (path, data) :: rest else p :: setAssoc rest path data

/-- `files.get(path)` on the result map. -/
def getAssoc (files : List (String × List Nat)) (path : String) : Option (List Nat) :=
  match files with
  | [] => none
  | p :: rest => if p.1 = path then some p.2 else getAssoc rest path

/-- The body of one fetch attempt (lean-loader.ts:210-231): only an ok
response whose bytes validate is stored; non-ok responses and network
errors are tolerated. -/
def fetchOne (net : String → FetchOutcome) (files : List (String × List Nat)) (path : String) :
    List (String × List Nat) :=
  match net path with
  | FetchOutcome.ok data => if isValidOlean data then setAssoc files path data else files
  | FetchOutcome.notOk => files
  | FetchOutcome.netError => files

/-- The whole queue-draining phase of `fetchOleanFiles`: process the
paths in order, incrementing `loaded` and appending one
`(loaded, total)` progress record per completed attempt. -/
def fetchLoop (net : String → FetchOutcome) (total : Nat) :
    List String → List (String × List Nat) → Nat → List (Nat × Nat) →
    List (String × List Nat) × List (Nat × Nat)
  | [], files, _, prog => (files, prog)
  | path :: rest, files, loaded, prog =>
    fetchLoop net total rest (fetchOne net files path) (loaded + 1) (prog ++ [(loaded + 1, total)])

/-- Shallow embedding of `fetchOleanFiles` (lean-loader.ts:193-248):
returns the result map and the sequence of `onProgress` invocations. -/
def fetchOleanFiles (paths : List String) (net : String → FetchOutcome) :
    List (String × List Nat) × List (Nat × Nat) :=
  fetchLoop net paths.length paths [] 0 []

end LeanLoader

namespace TarCodec

/-!
### `parseTar` (utils.ts:2-64) — heap model

Claim C9 is about aliasing (the codec must return *copies*, never views
of its input), so byte buffers are modelled with an explicit store:
a `Store` is a list of backing buffers, and a `TarView` is a
`Uint8Array` — a reference into the store plus a start offset and a
length.  `data.slice(...)` allocates a fresh backing buffer (a copy);
`data.subarray(...)` would merely re-index the same buffer.  `parseTar`
only ever reads its input and allocates fresh buffers for the extracted
files.

File names are kept as their raw bytes.  The JS code decodes them with
`TextDecoder` (UTF-8) before using them as map keys; for the byte
sequences these claims touch (ASCII) the decoding is injective and
preserves the prefix/substring tests, so the byte-level model is
observationally the same.

The loop offset is an `Int`: the size field of a header is parsed with
`parseInt(sizeStr, 8)`, which accepts a leading minus sign, so a crafted
archive can drive `offset` negative.  JS typed-array `subarray`/`slice`
treat negative indices as counted from the end and clamp; `jsIdx`
implements that normalization.
-/

/-- A store of backing byte buffers; a buffer's identity is its index. -/
abbrev Store := List (List Nat)

/-- A `Uint8Array`: a reference to a backing buffer in the store, a start
offset into it, and a length. -/
structure TarView where
  ref : Nat
  start : Nat
  len : Nat
deriving DecidableEq

/-- Read byte `i` of a view (0 past the end of the backing buffer; the
code's guards keep real reads in bounds for well-formed views). -/
def readB (s : Store) (v : TarView) (i : Nat) : Nat :=
  (s.getD v.ref []).getD (v.start + i) 0

/-- The byte contents seen through a view. -/
def viewBytes (s : Store) (v : TarView) : List Nat :=
  (List.range v.len).map (readB s v)

/-- Mutate one byte of a backing buffer (`arr[i] = val` on a buffer
reference) — used to state the non-aliasing consequences of C9. -/
def writeStore (s : Store) (r i : Nat) (val : Nat) : Store :=
  s.set r ((s.getD r []).set i val)

/-- JS relative-index normalization for `subarray`/`slice`: a negative
index counts from the end; results are clamped to `[0, len]`. -/
def jsIdx (x : Int) (len : Nat) : Nat :=
  if x < 0 then ((len : Int) + x).toNat else min x.toNat len

/-- JS whitespace accepted by `parseInt` within a string of byte-valued
code units: tab, LF, VT, FF, CR, space and NBSP. -/
def isJsSpace (b : Nat) : Bool :=
  b == 9 || b == 10 || b == 11 || b == 12 || b == 13 || b == 32 || b == 160

/-- `parseInt(str, 8)` on a string whose code units are the given bytes:
skip leading whitespace, an optional sign, then the maximal run of octal
digits; `none` is `NaN` (no digits).  Trailing garbage is ignored. -/
def parseIntOctal (bs : List Nat) : Option Int :=
  let bs1 := bs.dropWhile isJsSpace
  let signAndRest : Int × List Nat :=
    match bs1 with
    | 43 :: r => (1, r)
    | 45 :: r => (-1, r)
    | r => (1, r)
  let digits := signAndRest.2.takeWhile (fun b => 48 ≤ b && b ≤ 55)
  if digits.isEmpty then none
  else some (signAndRest.1 * (digits.foldl (fun a b => a * 8 + ((b : Int) - 48)) 0))

/-- `Math.ceil(size / 512) * 512` for an integral `size`. -/
def ceilPad (size : Int) : Int :=
  if 0 ≤ size then ((size.toNat + 511) / 512 * 512 : Nat)
  else -(((-size).toNat / 512 * 512 : Nat))

/-- Byte-level `name.includes(pat)`. -/
def hasSeq (pat : List Nat) : List Nat → Bool
  | [] => pat.isEmpty
  | b :: rest => ((b :: rest).take pat.length == pat) || hasSeq pat rest

/-- `files.set(name, fileData)` on the byte-named result map. -/
def setFile (files : List (List Nat × TarView)) (name : List Nat) (d : TarView) :
    List (List Nat × TarView) :=
  match files with
  | [] => [(name, d)]
  | p :: rest => if p.1 = name then (name, d) :: rest else p :: setFile rest name d

/-- Byte `i` of the 512-byte header block `data.subarray(offset,
offset + 512)` (utils.ts:8), with `subarray`'s clamping of negative and
out-of-range indices: reads past the clamped region give 0 (padding that
agrees byte for byte with the loop's reads, see `tarStep`). -/
def hdrByte (s : Store) (v : TarView) (offset : Int) (i : Nat) : Nat :=
  let b0 := jsIdx offset v.len
  let e0 := jsIdx (offset + 512) v.len
  if i < e0 - b0 then readB s v (b0 + i) else 0

/-- `data.slice(b, e)` restricted to a nonnegative in-view range: the
bytes at positions `b, ..., e-1` of the view, as a fresh list. -/
def sliceBytes (s : Store) (v : TarView) (b e : Nat) : List Nat :=
  (List.range (e - b)).map (fun i => readB s v (b + i))

/-- Outcome of one iteration of the `parseTar` header loop. -/
inductive StepRes where
  | stop : StepRes
  | emit (name copied : List Nat) (next : Int) : StepRes
  | skip (next : Int) : StepRes
deriving DecidableEq

/-- One iteration of the `while` loop of `parseTar` (utils.ts:7-52),
already past the `offset < data.length - 512` test: reads the 512-byte
header block at `offset` (the type-flag comparison is against JS
`undefined` when index 156 falls outside the clamped region, which
matches neither `0` nor `48`), and either stops at an all-zero block,
emits a regular-file entry with positive size whose name is nonempty and
not a macOS `._` sidecar — copying the data region out of the input via
`slice` — or skips the block; the offset advances by 512 plus the size
rounded up to the next 512-byte boundary.  The size can parse negative
via `parseInt`, in which case the offset can fail to advance. -/
def tarStep (s : Store) (v : TarView) (offset : Int) : StepRes :=
  let b0 := jsIdx offset v.len
  let e0 := jsIdx (offset + 512) v.len
  let hlen := e0 - b0
  let hdr := hdrByte s v offset
  if (List.range 512).all (fun i => hdr i == 0) then .stop
  else
    let name0 := ((List.range 100).map hdr).takeWhile (fun b => b != 0)
    let isUstar := (List.range 5).map (fun i => hdr (257 + i)) = [117, 115, 116, 97, 114]
    let pfx := ((List.range 155).map (fun i => hdr (345 + i))).takeWhile (fun b => b != 0)
    let name := if isUstar ∧ pfx ≠ [] then pfx ++ (47 :: name0) else name0
    let sizeBytes := ((List.range 12).map (fun i => hdr (124 + i))).takeWhile
      (fun b => b != 0 && b != 32)
    let size : Int := (parseIntOctal sizeBytes).getD 0
    let tfOk : Bool := if 156 < hlen then (hdr 156 == 0 || hdr 156 == 48) else false
    let offset2 := offset + 512
    let nextOffset := offset2 + ceilPad size
    if tfOk = true ∧ 0 < size ∧ name ≠ [] ∧
        hasSeq [47, 46, 95] name = false ∧ name.take 2 ≠ [46, 95] then
      .emit name (sliceBytes s v (jsIdx offset2 v.len) (jsIdx (offset2 + size) v.len))
        nextOffset
    else .skip nextOffset

/-- The `while (offset < data.length - 512)` loop of `parseTar`
(utils.ts:6-53), fuel-indexed: while the test holds, run `tarStep`; an
emitted file's copied bytes become a fresh backing buffer appended to the
store, and the entry records a view of that whole fresh buffer.  Fuel
exhaustion (the loop can fail to advance on a negative parsed size)
returns `none`. -/
def parseTarLoop (v : TarView) :
    Nat → Store → Int → List (List Nat × TarView) → Option (Store × List (List Nat × TarView))
  | 0, _, _, _ => none
  | fuel + 1, s, offset, files =>
    if offset < (v.len : Int) - 512 then
      match tarStep s v offset with
      | .stop => some (s, files)
      | .emit name copied next =>
        parseTarLoop v fuel (s ++ [copied]) next
          (setFile files name ⟨s.length, 0, copied.length⟩)
      | .skip next => parseTarLoop v fuel s next files
    else some (s, files)

/-- Shallow embedding of `parseTar` (utils.ts:2-64): run the header loop
from offset 0 with an empty result map.  Returns the final store (the
input buffers plus one freshly allocated copy per extracted file) and the
name-to-view mapping. -/
def parseTar (s : Store) (v : TarView) (fuel : Nat) :
    Option (Store × List (List Nat × TarView)) :=
  parseTarLoop v fuel s 0 []

/-- A well-formed 512-byte tar header block: name `"f"` (byte 102 at
index 0), octal size field `"1"` (byte 49 at index 124), type flag `'0'`
(byte 48 at index 156), everything else zero. -/
def c8hdr : List Nat :=
  (((List.replicate 512 0).set 0 102).set 124 49).set 156 48

/-- A 1536-byte archive: a well-formed header for a one-byte file `"f"`
(as in `c8hdr`), a data block whose first byte is 65, and a trailing
zero block. -/
def c9buf : List Nat :=
  ((((List.replicate 1536 0).set 0 102).set 124 49).set 156 48).set 512 65

end TarCodec

namespace LeanLoader

/-! ### Specification-side predicates for the resolver -/

/-- The direct successors of a module under the manifest's import
relation, as traversed by `getTransitiveDeps`: its declared imports minus
the non-resolvable `'all'` marker; a module absent from the manifest is a
leaf. -/
def directSucc (mods : Modules) (a : String) : List String :=
  match lookupMod mods a with
  | none => []
  | some info => info.imports.filter (fun i => i ≠ "all")

/-- One step of the import relation: `b` is a direct successor of `a`. -/
def Edge (mods : Modules) (a b : String) : Prop :=
  b ∈ directSucc mods a

/-- Reachability through at least one import edge. -/
def Reaches (mods : Modules) (a b : String) : Prop :=
  Relation.TransGen (Edge mods) a b

/-- A module is *resolved* in a cache when it is either absent from the
manifest (a leaf needing no expansion) or has a cache entry. -/
def resolvedIn (mods : Modules) (c : Cache) (x : String) : Prop :=
  lookupMod mods x = none ∨ ∃ dx, lookupC c x = some dx

/-- The invariant of the memoization cache with respect to a set `V` of
in-progress modules: every entry contains all direct successors of its
key, and every member of an entry is either already resolved in the cache
or still in progress. -/
def cacheOK (mods : Modules) (c : Cache) (V : List String) : Prop :=
  ∀ n dn, lookupC c n = some dn →
    (∀ b ∈ directSucc mods n, b ∈ dn) ∧ (∀ x ∈ dn, resolvedIn mods c x ∨ x ∈ V)

/-- Postcondition of one `getTransitiveDeps` call from state `st` to
`st'` returning `d`: existing cache entries survive unchanged, entries of
already-visited keys are untouched, new entries are bounded by `d`, every
member of `d` is resolved afterwards or was already in progress, every
newly visited module is resolved afterwards, the cache invariant holds
with respect to the entry `visited` set, and — unless the module was
already in progress — `d` contains all its direct successors. -/
def depsPost (mods : Modules) (m : String) (st st' : DepState) (d : List String) : Prop :=
  (∀ n dn, lookupC st.cache n = some dn → lookupC st'.cache n = some dn) ∧
  (∀ n, n ∈ st.visited → lookupC st'.cache n = lookupC st.cache n) ∧
  (∀ n dn, lookupC st'.cache n = some dn → lookupC st.cache n = none → dn ⊆ d) ∧
  (∀ x ∈ d, resolvedIn mods st'.cache x ∨ x ∈ st.visited) ∧
  (∀ x ∈ st'.visited, x ∉ st.visited → resolvedIn mods st'.cache x) ∧
  cacheOK mods st'.cache st.visited ∧
  (m ∉ st.visited → ∀ b ∈ directSucc mods m, b ∈ d)

/-- Postcondition of the import loop: like `depsPost`, with the
accumulator growing monotonically and every non-`'all'` import ending up
in the result. -/
def goPost (mods : Modules) (imps : List String) (st st' : DepState)
    (deps deps' : List String) : Prop :=
  deps ⊆ deps' ∧
  (∀ n dn, lookupC st.cache n = some dn → lookupC st'.cache n = some dn) ∧
  (∀ n, n ∈ st.visited → lookupC st'.cache n = lookupC st.cache n) ∧
  (∀ n dn, lookupC st'.cache n = some dn → lookupC st.cache n = none → dn ⊆ deps') ∧
  (∀ x ∈ deps', x ∈ deps ∨ resolvedIn mods st'.cache x ∨ x ∈ st.visited) ∧
  (∀ x ∈ st'.visited, x ∉ st.visited → resolvedIn mods st'.cache x) ∧
  cacheOK mods st'.cache st.visited ∧
  (∀ i ∈ imps, i ≠ "all" → i ∈ deps')

/-- The invariant carried across seeds by `resolveLoop`: the cache
invariant holds with no module in progress, every cache entry is bounded
by the accumulated module set, and every accumulated module is resolved. -/
def loopInv (mods : Modules) (c : Cache) (A : List String) : Prop :=
  cacheOK mods c [] ∧ (∀ n dn, lookupC c n = some dn → dn ⊆ A) ∧
  (∀ x ∈ A, resolvedIn mods c x)

/-- `U` is closed under the manifest's declared imports: every import of
every manifest entry lies in `U`.  Taking `U` to be all manifest keys
together with all names occurring in import lists always works. -/
def importsClosed (mods : Modules) (U : List String) : Prop :=
  ∀ k info, lookupMod mods k = some info → ∀ i ∈ info.imports, i ∈ U

/-- The number of members of `U` not yet visited — the decreasing measure
of the recursion. -/
def unvisited (U visited : List String) : Nat :=
  (U.filter (fun u => decide (u ∉ visited))).length

/-- The bytes `fetchOleanFiles` would store for one path: the response
body when the fetch is ok and validates, nothing otherwise. -/
def okData (net : String → FetchOutcome) (p : String) : Option (List Nat) :=
  match net p with
  | FetchOutcome.ok d => if isValidOlean d then some d else none
  | FetchOutcome.notOk => none
  | FetchOutcome.netError => none

end LeanLoader

namespace LeanLoader

/-! ### Lemmas: unfolding and monotonicity of `getTransitiveDeps` -/

theorem getTransitiveDeps_succ (fuel : Nat) (m : String) (mods : Modules) (st : DepState) :
    getTransitiveDeps (fuel + 1) m mods st =
      if m ∈ st.visited then some ((lookupC st.cache m).getD [], st)
      else
        match lookupC st.cache m with
        | some d => some (d, ⟨st.cache, addMod st.visited m⟩)
        | none =>
          match lookupMod mods m with
          | none => some ([], ⟨st.cache, addMod st.visited m⟩)
          | some info =>
            match goImports fuel info.imports mods ⟨st.cache, addMod st.visited m⟩ [] with
            | none => none
            | some (deps, st2) => some (deps, ⟨(m, deps) :: st2.cache, st2.visited⟩) := by
  rfl

theorem goImports_nil (fuel : Nat) (mods : Modules) (st : DepState) (deps : List String) :
    goImports fuel [] mods st deps = some (deps, st) := by
  rfl

theorem goImports_none (fuel : Nat) (imps : List String) (mods : Modules) :
    imps.foldl (fun acc imp =>
      match acc with
      | none => none
      | some (depsAcc, stAcc) =>
        if imp = "all" then some (depsAcc, stAcc)
        else
          match getTransitiveDeps fuel imp mods stAcc with
          | none => none
          | some (t, stNext) => some (addAll (addMod depsAcc imp) t, stNext))
      (none : Option (List String × DepState)) = none := by
  induction imps with
  | nil => rfl
  | cons imp rest ihl => exact ihl

theorem goImports_cons (fuel : Nat) (imp : String) (rest : List String) (mods : Modules)
    (st : DepState) (deps : List String) :
    goImports fuel (imp :: rest) mods st deps =
      if imp = "all" then goImports fuel rest mods st deps
      else
        match getTransitiveDeps fuel imp mods st with
        | none => none
        | some (t, st') => goImports fuel rest mods st' (addAll (addMod deps imp) t) := by
  by_cases him : imp = "all"
  · simp only [goImports, List.foldl_cons, him, if_pos]
  · simp only [goImports, List.foldl_cons, if_neg him]
    cases getTransitiveDeps fuel imp mods st with
    | none => exact goImports_none fuel rest mods
    | some r => rfl

/-! ### Membership lemmas for the list-set model -/

theorem mem_addMod (x y : String) (s : List String) : x ∈ addMod s y ↔ x = y ∨ x ∈ s := by
  unfold addMod
  split
  · rename_i hy
    constructor
    · exact fun h => Or.inr h
    · intro h
      rcases h with h | h
      · exact h ▸ hy
      · exact h
  · simp [List.mem_append, or_comm]

theorem mem_addMod_self (y : String) (s : List String) : y ∈ addMod s y :=
  (mem_addMod y y s).mpr (Or.inl rfl)

theorem mem_addMod_of_mem {x : String} (y : String) {s : List String} (h : x ∈ s) :
    x ∈ addMod s y :=
  (mem_addMod x y s).mpr (Or.inr h)

theorem subset_addMod (s : List String) (y : String) : s ⊆ addMod s y :=
  fun _ hx => mem_addMod_of_mem y hx

theorem mem_addAll (x : String) (s t : List String) : x ∈ addAll s t ↔ x ∈ s ∨ x ∈ t := by
  induction t generalizing s with
  | nil => simp [addAll]
  | cons a rest ih =>
    show x ∈ addAll (addMod s a) rest ↔ _
    rw [ih]
    rw [mem_addMod]
    simp only [List.mem_cons]
    tauto

theorem mem_addAll_left {x : String} {s : List String} (t : List String) (h : x ∈ s) :
    x ∈ addAll s t :=
  (mem_addAll x s t).mpr (Or.inl h)

theorem mem_addAll_right {x : String} (s : List String) {t : List String} (h : x ∈ t) :
    x ∈ addAll s t :=
  (mem_addAll x s t).mpr (Or.inr h)

/-- Monotonicity of the visited set: a call of `getTransitiveDeps` only
grows `visited`, and marks its own module visited; the import loop only
grows `visited`. -/
theorem visited_mono (fuel : Nat) :
    (∀ (m : String) (mods : Modules) (st : DepState) d st',
       getTransitiveDeps fuel m mods st = some (d, st') →
       st.visited ⊆ st'.visited ∧ m ∈ st'.visited) ∧
    (∀ (imps : List String) (mods : Modules) (st : DepState) deps deps' st',
       goImports fuel imps mods st deps = some (deps', st') →
       st.visited ⊆ st'.visited) := by
  induction fuel with
  | zero =>
    constructor
    · intro m mods st d st' h
      simp only [getTransitiveDeps] at h
      exact Option.noConfusion h
    · intro imps mods st deps deps' st' h
      induction imps generalizing st deps with
      | nil =>
        rw [goImports_nil] at h
        cases h
        exact List.Subset.refl _
      | cons imp rest ihl =>
        rw [goImports_cons] at h
        split at h
        · exact ihl st deps h
        · split at h
          · exact absurd h (by simp)
          · rename_i t st2 heq
            simp only [getTransitiveDeps] at heq
            exact Option.noConfusion heq
  | succ n ih =>
    have hd : ∀ m mods st d st', getTransitiveDeps (n + 1) m mods st = some (d, st') →
        st.visited ⊆ st'.visited ∧ m ∈ st'.visited := by
      intro m mods st d st' h
      rw [getTransitiveDeps_succ] at h
      split at h
      · rename_i hm
        cases h
        exact ⟨List.Subset.refl _, hm⟩
      · split at h
        · cases h
          exact ⟨subset_addMod _ _, mem_addMod_self _ _⟩
        · split at h
          · cases h
            exact ⟨subset_addMod _ _, mem_addMod_self _ _⟩
          · split at h
            · exact absurd h (by simp)
            · rename_i info _ deps st2 heq
              cases h
              have h2 := ih.2 _ _ _ _ _ _ heq
              exact ⟨List.Subset.trans (subset_addMod _ _) h2,
                h2 (mem_addMod_self _ _)⟩
    refine ⟨hd, ?_⟩
    intro imps mods st deps deps' st' h
    induction imps generalizing st deps with
    | nil =>
      rw [goImports_nil] at h
      cases h
      exact List.Subset.refl _
    | cons imp rest ihl =>
      rw [goImports_cons] at h
      split at h
      · exact ihl st deps h
      · split at h
        · exact absurd h (by simp)
        · rename_i t st2 heq
          exact List.Subset.trans (hd _ _ _ _ _ heq).1 (ihl st2 _ h)

/-- A successful `getTransitiveDeps` call grows `visited` and visits its
module. -/
theorem getTransitiveDeps_visited {fuel : Nat} {m : String} {mods : Modules} {st : DepState}
    {d : List String} {st' : DepState} (h : getTransitiveDeps fuel m mods st = some (d, st')) :
    st.visited ⊆ st'.visited ∧ m ∈ st'.visited :=
  (visited_mono fuel).1 m mods st d st' h

/-- A successful import-loop run grows `visited`. -/
theorem goImports_visited {fuel : Nat} {imps : List String} {mods : Modules} {st : DepState}
    {deps deps' : List String} {st' : DepState}
    (h : goImports fuel imps mods st deps = some (deps', st')) :
    st.visited ⊆ st'.visited :=
  (visited_mono fuel).2 imps mods st deps deps' st' h

theorem unvisited_mono (U : List String) {v1 v2 : List String} (h : v1 ⊆ v2) :
    unvisited U v2 ≤ unvisited U v1 := by
  induction U with
  | nil => exact Nat.le_refl _
  | cons u rest ih =>
    simp only [unvisited]
    by_cases h2 : u ∈ v2
    · rw [List.filter_cons_of_neg (by simp [h2])]
      by_cases h1 : u ∈ v1
      · rw [List.filter_cons_of_neg (by simp [h1])]
        exact ih
      · rw [List.filter_cons_of_pos (by simp [h1])]
        exact Nat.le_succ_of_le ih
    · have h1 : u ∉ v1 := fun hx => h2 (h hx)
      rw [List.filter_cons_of_pos (by simp [h2]), List.filter_cons_of_pos (by simp [h1])]
      exact Nat.succ_le_succ ih

theorem unvisited_lt_addMod {U v : List String} {m : String} (hm : m ∈ U) (hnm : m ∉ v) :
    unvisited U (addMod v m) < unvisited U v := by
  induction U with
  | nil => exact absurd hm (List.not_mem_nil m)
  | cons u rest ih =>
    simp only [unvisited]
    by_cases hum : u = m
    · rw [List.filter_cons_of_neg (by simp [hum, mem_addMod_self]),
        List.filter_cons_of_pos (by simp [hum, hnm])]
      have hmono := unvisited_mono rest (subset_addMod v m)
      simp only [unvisited] at hmono
      simp only [List.length_cons]
      omega
    · have hmr : m ∈ rest := by
        rcases List.mem_cons.mp hm with h | h
        · exact absurd h.symm hum
        · exact h
      have same : (u ∈ addMod v m) ↔ (u ∈ v) := by
        rw [mem_addMod]
        simp [hum]
      have ihr := ih hmr
      simp only [unvisited] at ihr
      by_cases hu : u ∈ v
      · rw [List.filter_cons_of_neg (by simp [same.mpr hu]),
          List.filter_cons_of_neg (by simp [hu])]
        exact ihr
      · rw [List.filter_cons_of_pos
            (by simp only [decide_eq_true_eq]; exact fun hx => hu (same.mp hx)),
          List.filter_cons_of_pos (by simp [hu])]
        simp only [List.length_cons]
        exact Nat.succ_lt_succ ihr

/-- Fuel sufficiency: on any manifest — cyclic or not — the recursion of
`getTransitiveDeps` terminates; any fuel exceeding the number of
not-yet-visited names of an imports-closed universe suffices. -/
theorem fuel_sufficient {U : List String} {mods : Modules} (hU : importsClosed mods U) :
    ∀ fuel m st, m ∈ U → unvisited U st.visited < fuel →
      (getTransitiveDeps fuel m mods st).isSome := by
  intro fuel
  induction fuel with
  | zero =>
    intro m st _ hcard
    exact absurd hcard (Nat.not_lt_zero _)
  | succ n ihn =>
    intro m st hm hcard
    rw [getTransitiveDeps_succ]
    split
    · simp
    · rename_i hnv
      have hgo : ∀ imps st1 deps, (∀ i ∈ imps, i ∈ U) → unvisited U st1.visited < n →
          (goImports n imps mods st1 deps).isSome := by
        intro imps
        induction imps with
        | nil =>
          intro st1 deps _ _
          rw [goImports_nil]
          simp
        | cons imp rest ihl =>
          intro st1 deps himps hc1
          rw [goImports_cons]
          split
          · exact ihl st1 deps (fun i hi => himps i (List.mem_cons_of_mem _ hi)) hc1
          · have h1 := ihn imp st1 (himps imp (List.mem_cons_self _ _)) hc1
            obtain ⟨⟨t, st2⟩, heq⟩ := Option.isSome_iff_exists.mp h1
            rw [heq]
            have hsub := (getTransitiveDeps_visited heq).1
            have hc2 : unvisited U st2.visited ≤ unvisited U st1.visited :=
              unvisited_mono U hsub
            exact ihl st2 _ (fun i hi => himps i (List.mem_cons_of_mem _ hi))
              (Nat.lt_of_le_of_lt hc2 hc1)
      split
      · simp
      · split
        · simp
        · rename_i info hinfo
          have hc1 : unvisited U (addMod st.visited m) < n := by
            have hlt := unvisited_lt_addMod hm hnv
            omega
          have hg := hgo info.imports ⟨st.cache, addMod st.visited m⟩ []
            (fun i hi => hU m info hinfo i hi) hc1
          obtain ⟨⟨deps, st2⟩, heq⟩ := Option.isSome_iff_exists.mp hg
          rw [heq]
          simp

/-! ### The cache/closure invariant of `getTransitiveDeps` -/

theorem lookupC_cons (k : String) (v : List String) (c : Cache) (n : String) :
    lookupC ((k, v) :: c) n = if k = n then some v else lookupC c n := rfl

theorem cacheOK_mono {mods : Modules} {c : Cache} {V V' : List String} (hVV : V ⊆ V')
    (h : cacheOK mods c V) : cacheOK mods c V' := by
  intro n dn hn
  refine ⟨(h n dn hn).1, fun x hx => ?_⟩
  rcases (h n dn hn).2 x hx with hr | hv
  · exact Or.inl hr
  · exact Or.inr (hVV hv)

theorem resolvedIn_preserve {mods : Modules} {c c' : Cache}
    (hp : ∀ n dn, lookupC c n = some dn → lookupC c' n = some dn) {x : String}
    (h : resolvedIn mods c x) : resolvedIn mods c' x := by
  rcases h with h | ⟨dx, hx⟩
  · exact Or.inl h
  · exact Or.inr ⟨dx, hp x dx hx⟩

theorem resolvedIn_cons {mods : Modules} {c : Cache} (k : String) (v : List String)
    {x : String} (h : resolvedIn mods c x) : resolvedIn mods ((k, v) :: c) x := by
  rcases h with h | ⟨dx, hx⟩
  · exact Or.inl h
  · by_cases hk : k = x
    · exact Or.inr ⟨v, by rw [lookupC_cons, if_pos hk]⟩
    · exact Or.inr ⟨dx, by rw [lookupC_cons, if_neg hk]; exact hx⟩

/-- The main invariant of the resolver: a successful `getTransitiveDeps`
call (resp. import loop) whose entry state satisfies the cache invariant
establishes `depsPost` (resp. `goPost`). -/
theorem main_inv (fuel : Nat) :
    (∀ m mods st d st', cacheOK mods st.cache st.visited →
       getTransitiveDeps fuel m mods st = some (d, st') → depsPost mods m st st' d) ∧
    (∀ imps mods st deps deps' st', cacheOK mods st.cache st.visited →
       goImports fuel imps mods st deps = some (deps', st') →
       goPost mods imps st st' deps deps') := by
  induction fuel with
  | zero =>
    constructor
    · intro m mods st d st' _ h
      simp only [getTransitiveDeps] at h
      exact Option.noConfusion h
    · intro imps
      induction imps with
      | nil =>
        intro mods st deps deps' st' hok h
        rw [goImports_nil] at h
        cases h
        refine ⟨List.Subset.refl _, fun n dn hn => hn, fun n _ => rfl,
          fun n dn h1 h2 => absurd h1 (by rw [h2]; exact Option.noConfusion),
          fun x hx => Or.inl hx, fun x hx hnx => absurd hx hnx, hok, by simp⟩
      | cons imp rest ihl =>
        intro mods st deps deps' st' hok h
        rw [goImports_cons] at h
        split at h
        · rename_i him
          obtain ⟨g1, g2, g3, g4, g5, g6, g7, g8⟩ := ihl mods st deps deps' st' hok h
          refine ⟨g1, g2, g3, g4, g5, g6, g7, fun i hi hne => ?_⟩
          rcases List.mem_cons.mp hi with hi | hi
          · exact absurd (hi.trans him) hne
          · exact g8 i hi hne
        · split at h
          · exact absurd h (by simp)
          · rename_i t st2 heq
            simp only [getTransitiveDeps] at heq
            exact Option.noConfusion heq
  | succ n ih =>
    have hd : ∀ m mods st d st', cacheOK mods st.cache st.visited →
        getTransitiveDeps (n + 1) m mods st = some (d, st') → depsPost mods m st st' d := by
      intro m mods st d st' hok h
      rw [getTransitiveDeps_succ] at h
      split at h
      · rename_i hv
        cases h
        refine ⟨fun n dn hn => hn, fun n _ => rfl,
          fun n dn h1 h2 => absurd h1 (by rw [h2]; exact Option.noConfusion),
          fun x hx => ?_, fun x hx hnx => absurd hx hnx, hok, fun hnm => absurd hv hnm⟩
        cases hcm : lookupC st.cache m with
        | none => rw [hcm] at hx; exact absurd hx (by simp)
        | some dm =>
          rw [hcm] at hx
          exact (hok m dm hcm).2 x hx
      · rename_i hnv
        split at h
        · rename_i d0 hc0
          cases h
          refine ⟨fun n dn hn => hn, fun n _ => rfl,
            fun n dn h1 h2 => absurd h1 (by rw [h2]; exact Option.noConfusion),
            fun x hx => (hok m d hc0).2 x hx,
            fun x hx hnx => ?_, hok, fun _ => (hok m d hc0).1⟩
          have hxm : x = m := by
            rcases (mem_addMod x m st.visited).mp hx with h' | h'
            · exact h'
            · exact absurd h' hnx
          exact Or.inr ⟨d, by rw [hxm]; exact hc0⟩
        · rename_i hcn
          split at h
          · rename_i hmod
            cases h
            refine ⟨fun n dn hn => hn, fun n _ => rfl,
              fun n dn h1 h2 => absurd h1 (by rw [h2]; exact Option.noConfusion),
              fun x hx => absurd hx (by simp),
              fun x hx hnx => ?_, hok, fun _ => by simp [directSucc, hmod]⟩
            have hxm : x = m := by
              rcases (mem_addMod x m st.visited).mp hx with h' | h'
              · exact h'
              · exact absurd h' hnx
            exact Or.inl (by rw [hxm]; exact hmod)
          · rename_i info hmod
            split at h
            · exact absurd h (by simp)
            · rename_i deps st2 hgo
              cases h
              have hok1 : cacheOK mods st.cache (addMod st.visited m) :=
                cacheOK_mono (subset_addMod _ _) hok
              obtain ⟨g1, g2, g3, g4, g5, g6, g7, g8⟩ :=
                ih.2 info.imports mods ⟨st.cache, addMod st.visited m⟩ [] d st2 hok1 hgo
              have hmn2 : lookupC st2.cache m = none := by
                rw [g3 m (mem_addMod_self _ _)]
                exact hcn
              have hsucc : ∀ b ∈ directSucc mods m, b ∈ d := by
                intro b hb
                simp only [directSucc, hmod, List.mem_filter] at hb
                exact g8 b hb.1 (by simpa using hb.2)
              have hresolve : ∀ x ∈ d,
                  resolvedIn mods ((m, d) :: st2.cache) x ∨ x ∈ st.visited := by
                intro x hx
                rcases g5 x hx with hx0 | hr | hv
                · exact absurd hx0 (by simp)
                · exact Or.inl (resolvedIn_cons m d hr)
                · rcases (mem_addMod x m st.visited).mp hv with hxm | hxv
                  · refine Or.inl (Or.inr ⟨d, ?_⟩)
                    rw [lookupC_cons, if_pos hxm.symm]
                  · exact Or.inr hxv
              refine ⟨?_, ?_, ?_, hresolve, ?_, ?_, fun _ => hsucc⟩
              · -- preservation of existing entries
                intro k dk hk
                have hkm : ¬ m = k := fun he => by
                  rw [← he] at hk; rw [hcn] at hk; exact Option.noConfusion hk
                rw [lookupC_cons, if_neg hkm]
                exact g2 k dk hk
              · -- entries of already-visited keys unchanged
                intro k hk
                have hkm : ¬ m = k := fun he => hnv (he ▸ hk)
                rw [lookupC_cons, if_neg hkm]
                exact g3 k (mem_addMod_of_mem _ hk)
              · -- new entries bounded by the result
                intro k dk hk hk0
                rw [lookupC_cons] at hk
                by_cases hkm : m = k
                · rw [if_pos hkm] at hk
                  cases hk
                  exact List.Subset.refl _
                · rw [if_neg hkm] at hk
                  exact g4 k dk hk hk0
              · -- newly visited modules are resolved
                intro x hx hnx
                by_cases hxm : x = m
                · refine Or.inr ⟨d, ?_⟩
                  rw [lookupC_cons, if_pos hxm.symm]
                · have hx1 : x ∉ addMod st.visited m := by
                    rw [mem_addMod]
                    tauto
                  exact resolvedIn_cons m d (g6 x hx hx1)
              · -- the cache invariant, with respect to the entry visited set
                intro k dk hk
                rw [lookupC_cons] at hk
                by_cases hkm : m = k
                · rw [if_pos hkm] at hk
                  cases hk
                  exact ⟨hkm ▸ hsucc, fun x hx => hresolve x hx⟩
                · rw [if_neg hkm] at hk
                  refine ⟨(g7 k dk hk).1, fun x hx => ?_⟩
                  rcases (g7 k dk hk).2 x hx with hr | hv
                  · exact Or.inl (resolvedIn_cons m d hr)
                  · rcases (mem_addMod x m st.visited).mp hv with hxm | hxv
                    · refine Or.inl (Or.inr ⟨d, ?_⟩)
                      rw [lookupC_cons, if_pos hxm.symm]
                    · exact Or.inr hxv
    refine ⟨hd, ?_⟩
    intro imps
    induction imps with
    | nil =>
      intro mods st deps deps' st' hok h
      rw [goImports_nil] at h
      cases h
      refine ⟨List.Subset.refl _, fun n dn hn => hn, fun n _ => rfl,
        fun n dn h1 h2 => absurd h1 (by rw [h2]; exact Option.noConfusion),
        fun x hx => Or.inl hx, fun x hx hnx => absurd hx hnx, hok, by simp⟩
    | cons imp rest ihl =>
      intro mods st deps deps' st' hok h
      rw [goImports_cons] at h
      split at h
      · rename_i him
        obtain ⟨g1, g2, g3, g4, g5, g6, g7, g8⟩ := ihl mods st deps deps' st' hok h
        refine ⟨g1, g2, g3, g4, g5, g6, g7, fun i hi hne => ?_⟩
        rcases List.mem_cons.mp hi with hi | hi
        · exact absurd (hi.trans him) hne
        · exact g8 i hi hne
      · rename_i him
        split at h
        · exact absurd h (by simp)
        · rename_i t st2 heq
          obtain ⟨d1, d2, d3, d4, d5, d6, d7⟩ := hd imp mods st t st2 hok heq
          have hvis := getTransitiveDeps_visited heq
          have hok2 : cacheOK mods st2.cache st2.visited := cacheOK_mono hvis.1 d6
          obtain ⟨g1, g2, g3, g4, g5, g6, g7, g8⟩ :=
            ihl mods st2 (addAll (addMod deps imp) t) deps' st' hok2 h
          have hpres : ∀ k dk, lookupC st.cache k = some dk → lookupC st'.cache k = some dk :=
            fun k dk hk => g2 k dk (d1 k dk hk)
          have himp_res : resolvedIn mods st'.cache imp ∨ imp ∈ st.visited := by
            by_cases hiv : imp ∈ st.visited
            · exact Or.inr hiv
            · exact Or.inl (resolvedIn_preserve g2 (d5 imp hvis.2 hiv))
          have hnewvis : ∀ x ∈ st'.visited, x ∉ st.visited → resolvedIn mods st'.cache x := by
            intro x hx hnx
            by_cases hx2 : x ∈ st2.visited
            · exact resolvedIn_preserve g2 (d5 x hx2 hnx)
            · exact g6 x hx hx2
          refine ⟨?_, hpres, ?_, ?_, ?_, hnewvis, ?_, ?_⟩
          · -- accumulator grows
            intro x hx
            exact g1 (mem_addAll_left t (mem_addMod_of_mem imp hx))
          · -- entries of already-visited keys unchanged
            intro k hk
            rw [g3 k (hvis.1 hk)]
            exact d2 k hk
          · -- new entries bounded
            intro k dk hk hk0
            cases hc2 : lookupC st2.cache k with
            | some dk2 =>
              have := g2 k dk2 hc2
              rw [this] at hk
              cases hk
              exact List.Subset.trans (d3 k dk hc2 hk0)
                (List.Subset.trans (fun x hx => mem_addAll_right _ hx) g1)
            | none => exact g4 k dk hk hc2
          · -- members of the result
            intro x hx
            rcases g5 x hx with hx1 | hr | hv
            · rcases (mem_addAll x (addMod deps imp) t).mp hx1 with hx2 | hx3
              · rcases (mem_addMod x imp deps).mp hx2 with hx4 | hx4
                · rcases himp_res with hr | hv
                  · exact Or.inr (Or.inl (hx4 ▸ hr))
                  · exact Or.inr (Or.inr (hx4 ▸ hv))
                · exact Or.inl hx4
              · rcases d4 x hx3 with hr | hv
                · exact Or.inr (Or.inl (resolvedIn_preserve g2 hr))
                · exact Or.inr (Or.inr hv)
            · exact Or.inr (Or.inl hr)
            · by_cases hxv : x ∈ st.visited
              · exact Or.inr (Or.inr hxv)
              · exact Or.inr (Or.inl (resolvedIn_preserve g2 (d5 x hv hxv)))
          · -- cache invariant with respect to the entry visited set
            intro k dk hk
            refine ⟨(g7 k dk hk).1, fun x hx => ?_⟩
            rcases (g7 k dk hk).2 x hx with hr | hv
            · exact Or.inl hr
            · by_cases hxv : x ∈ st.visited
              · exact Or.inr hxv
              · exact Or.inl (resolvedIn_preserve g2 (d5 x hv hxv))
          · -- every non-'all' import is collected
            intro i hi hne
            rcases List.mem_cons.mp hi with hi | hi
            · exact hi ▸ g1 (mem_addAll_left t (mem_addMod_self imp deps))
            · exact g8 i hi hne

/-! ### From the loop invariant to closure completeness -/

theorem resolveLoop_inv (fuel : Nat) (mods : Modules) :
    ∀ (seeds : List String) (c : Cache) (A : List String) A' c',
      loopInv mods c A → resolveLoop fuel seeds mods c A = some (A', c') →
      loopInv mods c' A' ∧ A ⊆ A' ∧ ∀ s ∈ seeds, s ∈ A' := by
  intro seeds
  induction seeds with
  | nil =>
    intro c A A' c' hinv h
    simp only [resolveLoop] at h
    cases h
    exact ⟨hinv, List.Subset.refl _, by simp⟩
  | cons s rest ihl =>
    intro c A A' c' hinv h
    simp only [resolveLoop] at h
    split at h
    · exact absurd h (by simp)
    · rename_i deps st' heq
      obtain ⟨d1, d2, d3, d4, d5, d6, d7⟩ :=
        (main_inv fuel).1 s mods ⟨c, ∅⟩ deps st' hinv.1 heq
      have hvis := getTransitiveDeps_visited heq
      have hinv2 : loopInv mods st'.cache (addAll (addMod A s) deps) := by
        refine ⟨d6, ?_, ?_⟩
        · intro n dn hn
          cases hcn : lookupC c n with
          | some dn0 =>
            have := d1 n dn0 hcn
            rw [this] at hn
            cases hn
            exact List.Subset.trans (hinv.2.1 n dn hcn)
              (fun x hx => mem_addAll_left deps (mem_addMod_of_mem s hx))
          | none =>
            exact List.Subset.trans (d3 n dn hn hcn)
              (fun x hx => mem_addAll_right _ hx)
        · intro x hx
          rcases (mem_addAll x (addMod A s) deps).mp hx with hx | hx
          · rcases (mem_addMod x s A).mp hx with hx | hx
            · exact hx ▸ d5 s hvis.2 (List.not_mem_nil s)
            · exact resolvedIn_preserve d1 (hinv.2.2 x hx)
          · rcases d4 x hx with hr | hv
            · exact hr
            · exact absurd hv (List.not_mem_nil x)
      obtain ⟨hinv', hsub', hseeds'⟩ := ihl st'.cache (addAll (addMod A s) deps) A' c' hinv2 h
      refine ⟨hinv', ?_, ?_⟩
      · exact List.Subset.trans
          (fun x hx => mem_addAll_left deps (mem_addMod_of_mem s hx)) hsub'
      · intro t ht
        rcases List.mem_cons.mp ht with ht | ht
        · exact ht ▸ hsub' (mem_addAll_left deps (mem_addMod_self _ _))
        · exact hseeds' t ht

/-- The accumulated module set of an invariant-satisfying state is closed
under the import relation. -/
theorem loopInv_closed {mods : Modules} {c : Cache} {A : List String}
    (hinv : loopInv mods c A) : ∀ x ∈ A, ∀ b, Edge mods x b → b ∈ A := by
  intro x hx b hb
  rcases hinv.2.2 x hx with hnone | ⟨dx, hdx⟩
  · exact absurd hb (by simp [Edge, directSucc, hnone])
  · exact hinv.2.1 x dx hdx ((hinv.1 x dx hdx).1 b hb)

/-- Everything reachable from a member of an invariant-satisfying module
set belongs to the set. -/
theorem loopInv_reaches {mods : Modules} {c : Cache} {A : List String}
    (hinv : loopInv mods c A) {s m : String} (hs : s ∈ A) (h : Reaches mods s m) : m ∈ A := by
  induction h with
  | single hb => exact loopInv_closed hinv s hs _ hb
  | tail _ hbc ih => exact loopInv_closed hinv _ ih _ hbc

/-- The initial state of either resolver entry point satisfies the loop
invariant vacuously. -/
theorem loopInv_init (mods : Modules) : loopInv mods [] [] := by
  refine ⟨?_, ?_, ?_⟩
  · intro n dn hn
    exact Option.noConfusion hn
  · intro n dn hn
    exact Option.noConfusion hn
  · intro x hx
    exact absurd hx (List.not_mem_nil x)

/-- The full completeness statement at the `resolveLoop` level: the
resulting module set contains every seed and everything reachable from a
seed. -/
theorem resolveLoop_complete {fuel : Nat} {seeds : List String} {mods : Modules}
    {A' : List String} {c' : Cache} (h : resolveLoop fuel seeds mods [] [] = some (A', c')) :
    (∀ s ∈ seeds, s ∈ A') ∧ ∀ s ∈ seeds, ∀ m, Reaches mods s m → m ∈ A' := by
  obtain ⟨hinv', _, hseeds⟩ :=
    resolveLoop_inv fuel mods seeds [] [] A' c' (loopInv_init mods) h
  exact ⟨hseeds, fun s hs m hr => loopInv_reaches hinv' (hseeds s hs) hr⟩

/-! ### Sorting lemmas for `sortStrings` -/

theorem charListLe_total : ∀ as bs : List Char, charListLe as bs = true ∨ charListLe bs as = true
  | [], _ => Or.inl rfl
  | _ :: _, [] => Or.inr rfl
  | a :: as, b :: bs => by
    by_cases hab : a.toNat < b.toNat
    · exact Or.inl (by simp [charListLe, hab])
    · by_cases hba : b.toNat < a.toNat
      · exact Or.inr (by simp [charListLe, hba])
      · rcases charListLe_total as bs with h | h
        · exact Or.inl (by simp [charListLe, hab, hba, h])
        · exact Or.inr (by simp [charListLe, hab, hba, h])

theorem charListLe_trans : ∀ as bs cs : List Char,
    charListLe as bs = true → charListLe bs cs = true → charListLe as cs = true
  | [], _, _ => fun _ _ => rfl
  | a :: as, [], _ => fun h _ => by simp [charListLe] at h
  | _ :: _, _ :: _, [] => fun _ h => by simp [charListLe] at h
  | a :: as, b :: bs, c :: cs => by
    intro h1 h2
    simp only [charListLe] at h1 h2 ⊢
    by_cases hab : a.toNat < b.toNat
    · by_cases hbc : b.toNat < c.toNat
      · have : a.toNat < c.toNat := Nat.lt_trans hab hbc
        simp [this]
      · by_cases hcb : c.toNat < b.toNat
        · simp [hbc, hcb] at h2
        · have hbceq : b.toNat = c.toNat := Nat.le_antisymm (Nat.le_of_not_lt hcb) (Nat.le_of_not_lt hbc)
          have : a.toNat < c.toNat := hbceq ▸ hab
          simp [this]
    · by_cases hba : b.toNat < a.toNat
      · simp [hab, hba] at h1
      · have habeq : a.toNat = b.toNat := Nat.le_antisymm (Nat.le_of_not_lt hba) (Nat.le_of_not_lt hab)
        by_cases hbc : b.toNat < c.toNat
        · have : a.toNat < c.toNat := habeq ▸ hbc
          simp [this]
        · by_cases hcb : c.toNat < b.toNat
          · simp [hbc, hcb] at h2
          · have hbceq : b.toNat = c.toNat :=
              Nat.le_antisymm (Nat.le_of_not_lt hcb) (Nat.le_of_not_lt hbc)
            have hac : ¬ a.toNat < c.toNat := by omega
            have hca : ¬ c.toNat < a.toNat := by omega
            simp only [hab, hba, if_neg hac, if_neg hca, if_neg hbc, if_neg hcb] at h1 h2 ⊢
            exact charListLe_trans as bs cs h1 h2

theorem strLe_total (a b : String) : strLe a b = true ∨ strLe b a = true :=
  charListLe_total a.data b.data

theorem strLe_trans {a b c : String} (h1 : strLe a b = true) (h2 : strLe b c = true) :
    strLe a c = true :=
  charListLe_trans a.data b.data c.data h1 h2

theorem mem_insertSorted (x y : String) : ∀ l : List String,
    (x ∈ insertSorted y l ↔ x = y ∨ x ∈ l)
  | [] => by simp [insertSorted]
  | z :: rest => by
    simp only [insertSorted]
    split
    · simp [List.mem_cons]
    · rw [List.mem_cons, mem_insertSorted x y rest]
      simp [List.mem_cons]
      tauto

theorem length_insertSorted (y : String) : ∀ l : List String,
    (insertSorted y l).length = l.length + 1
  | [] => rfl
  | z :: rest => by
    simp only [insertSorted]
    split
    · simp
    · simp [length_insertSorted y rest]

theorem sorted_insertSorted (y : String) : ∀ {l : List String}, StrSorted l →
    StrSorted (insertSorted y l)
  | [], _ => List.pairwise_singleton _ _
  | z :: rest, h => by
    simp only [insertSorted]
    split
    · rename_i hyz
      refine List.Pairwise.cons ?_ h
      intro b hb
      rcases List.mem_cons.mp hb with hb | hb
      · exact hb ▸ hyz
      · exact strLe_trans hyz (List.rel_of_pairwise_cons h hb)
    · rename_i hyz
      have hzy : strLe z y = true := by
        rcases strLe_total y z with h' | h'
        · exact absurd h' hyz
        · exact h'
      refine List.Pairwise.cons ?_ (sorted_insertSorted y (List.Pairwise.of_cons h))
      intro b hb
      rcases (mem_insertSorted b y rest).mp hb with hb | hb
      · exact hb ▸ hzy
      · exact List.rel_of_pairwise_cons h hb

theorem sorted_sortStrings : ∀ l : List String, StrSorted (sortStrings l)
  | [] => List.Pairwise.nil
  | x :: rest => sorted_insertSorted x (sorted_sortStrings rest)

theorem mem_sortStrings (x : String) : ∀ l : List String, x ∈ sortStrings l ↔ x ∈ l
  | [] => Iff.rfl
  | y :: rest => by
    show x ∈ insertSorted y (sortStrings rest) ↔ _
    rw [mem_insertSorted x y (sortStrings rest), mem_sortStrings x rest]
    simp [List.mem_cons]

theorem length_sortStrings : ∀ l : List String, (sortStrings l).length = l.length
  | [] => rfl
  | y :: rest => by
    show (insertSorted y (sortStrings rest)).length = _
    rw [length_insertSorted y (sortStrings rest), length_sortStrings rest]
    rfl

theorem length_expandModulePaths : ∀ l : List String,
    (expandModulePaths l).length = 3 * l.length
  | [] => rfl
  | m :: rest => by
    simp only [expandModulePaths, List.length_cons, length_expandModulePaths rest]
    omega

/-! ### `fetchOleanFiles` — result map and progress -/

theorem getAssoc_setAssoc (q : String) (d : List Nat) (p : String) :
    ∀ files, getAssoc (setAssoc files q d) p = if q = p then some d else getAssoc files p
  | [] => by
    by_cases hqp : q = p <;> simp [setAssoc, getAssoc, hqp]
  | e :: rest => by
    by_cases he : e.1 = q
    · by_cases hqp : q = p <;> simp [setAssoc, getAssoc, he, hqp]
    · by_cases hep : e.1 = p
      · have hqp : ¬ q = p := fun hqp => he (hep.trans hqp.symm)
        have hpq : ¬ p = q := fun h => hqp h.symm
        simp [setAssoc, getAssoc, he, hep, hqp, hpq]
      · simp [setAssoc, getAssoc, he, hep, getAssoc_setAssoc q d p rest]

theorem getAssoc_fetchOne (net : String → FetchOutcome) (files : List (String × List Nat))
    (q p : String) :
    getAssoc (fetchOne net files q) p =
      if q = p ∧ (okData net q).isSome then okData net q else getAssoc files p := by
  cases hnet : net q with
  | ok d =>
    by_cases hv : isValidOlean d
    · by_cases hqp : q = p
      · subst hqp
        simp [fetchOne, okData, hnet, hv, getAssoc_setAssoc]
      · simp [fetchOne, okData, hnet, hv, hqp, getAssoc_setAssoc]
    · simp [fetchOne, okData, hnet, hv]
  | notOk => simp [fetchOne, okData, hnet]
  | netError => simp [fetchOne, okData, hnet]

theorem getAssoc_foldl_fetch (net : String → FetchOutcome) (p : String) :
    ∀ (ps : List String) (files : List (String × List Nat)),
      getAssoc (ps.foldl (fetchOne net) files) p =
        if p ∈ ps ∧ (okData net p).isSome then okData net p else getAssoc files p
  | [], files => by simp
  | q :: rest, files => by
    simp only [List.foldl_cons]
    rw [getAssoc_foldl_fetch net p rest (fetchOne net files q), getAssoc_fetchOne]
    by_cases hrest : p ∈ rest ∧ (okData net p).isSome
    · rw [if_pos hrest, if_pos ⟨List.mem_cons_of_mem q hrest.1, hrest.2⟩]
    · rw [if_neg hrest]
      by_cases hq : q = p ∧ (okData net q).isSome
      · rw [if_pos hq, if_pos ⟨hq.1 ▸ List.mem_cons_self q rest, hq.1 ▸ hq.2⟩, hq.1]
      · rw [if_neg hq]
        by_cases hp : p ∈ q :: rest ∧ (okData net p).isSome
        · exfalso
          rcases List.mem_cons.mp hp.1 with he | he
          · exact hq ⟨he.symm, he ▸ hp.2⟩
          · exact hrest ⟨he, hp.2⟩
        · rw [if_neg hp]

theorem fetchLoop_files (net : String → FetchOutcome) (total : Nat) :
    ∀ (ps : List String) files loaded prog,
      (fetchLoop net total ps files loaded prog).1 = ps.foldl (fetchOne net) files
  | [], _, _, _ => rfl
  | q :: rest, files, loaded, prog => by
    simp only [fetchLoop, List.foldl_cons]
    exact fetchLoop_files net total rest _ _ _

theorem fetchLoop_prog (net : String → FetchOutcome) (total : Nat) :
    ∀ (ps : List String) files loaded prog,
      (fetchLoop net total ps files loaded prog).2 =
        prog ++ (List.range ps.length).map (fun i => (loaded + i + 1, total))
  | [], _, _, prog => by simp [fetchLoop]
  | q :: rest, files, loaded, prog => by
    simp only [fetchLoop]
    rw [fetchLoop_prog net total rest _ _ _]
    rw [List.length_cons, List.range_succ_eq_map]
    simp only [List.map_cons, List.map_map, List.append_assoc, List.singleton_append]
    congr 1
    congr 1
    apply List.map_congr_left
    intro i _
    simp only [Function.comp_apply]
    congr 1
    omega

end LeanLoader


namespace LeanLoader

/-! ### Claim theorems -/

/-- Inversion of a successful `analyzeCodeDependencies` call. -/
theorem analyzeCodeDependencies_inv {fuel : Nat} {code : String} {mods : Modules}
    {ds : DependencySet} (h : analyzeCodeDependencies fuel code mods = some ds) :
    ∃ A c, resolveLoop fuel (seedsOf code) mods [] [] = some (A, c) ∧
      ds.explicitImports = parseUserImports code ∧
      ds.implicitImports = detectImplicitImports code ∧
      ds.allModules = sortStrings A ∧
      getRequiredOleanPaths fuel (seedsOf code) mods = some ds.oleanPaths := by
  have hdef : analyzeCodeDependencies fuel code mods =
      (match resolveLoop fuel (seedsOf code) mods [] [] with
       | none => none
       | some (allModules, _) =>
         match getRequiredOleanPaths fuel (seedsOf code) mods with
         | none => none
         | some oleanPaths =>
           some ⟨parseUserImports code, detectImplicitImports code,
             sortStrings allModules, oleanPaths⟩) := rfl
  rw [hdef] at h
  split at h
  · exact absurd h (by simp)
  · rename_i A c hres
    split at h
    · exact absurd h (by simp)
    · rename_i paths hpaths
      cases h
      exact ⟨A, c, hres, rfl, rfl, rfl, hpaths⟩

/-- **C1.**  For every manifest, source text and fuel on which the
analysis succeeds, every module reachable from a seed of the analysis
through one or more steps of the manifest's import relation — cyclic
graphs and subgraphs shared between seeds through the per-call
memoization cache included — is a member of the `allModules` field of the
returned `DependencySet`; the seeds themselves are members as well. -/
theorem c1_allModules_closure_complete (fuel : Nat) (code : String) (mods : Modules)
    (ds : DependencySet) (h : analyzeCodeDependencies fuel code mods = some ds)
    (s m : String) (hs : s ∈ seedsOf code) :
    s ∈ ds.allModules ∧ (Reaches mods s m → m ∈ ds.allModules) := by
  obtain ⟨A, c, hres, _, _, hall, _⟩ := analyzeCodeDependencies_inv h
  have hc := resolveLoop_complete hres
  constructor
  · rw [hall, mem_sortStrings]
    exact hc.1 s hs
  · intro hr
    rw [hall, mem_sortStrings]
    exact hc.2 s hs m hr

/-- Witness for C1 at a concrete manifest with one indirect dependency:
the implicit seed `Init` and the module `Init.Core`, reachable from it,
both end up in `allModules`. -/
theorem c1_witness : ∃ ds,
    analyzeCodeDependencies 3 ""
      [("Init", ⟨"Init", ["Init.Core"]⟩), ("Init.Core", ⟨"Init/Core", []⟩)] = some ds ∧
    "Init" ∈ ds.allModules ∧ "Init.Core" ∈ ds.allModules := by
  have h : analyzeCodeDependencies 3 ""
      [("Init", ⟨"Init", ["Init.Core"]⟩), ("Init.Core", ⟨"Init/Core", []⟩)] =
      some ⟨[], ["Init"], ["Init", "Init.Core"],
        ["Init.olean", "Init.olean.private", "Init.olean.server",
         "Init/Core.olean", "Init/Core.olean.private", "Init/Core.olean.server"]⟩ := by
    decide
  have h1 := c1_allModules_closure_complete 3 "" _ _ h "Init" "Init.Core" (by decide)
  refine ⟨_, h, h1.1, h1.2 (Relation.TransGen.single ?_)⟩
  unfold Edge
  decide

/-- **C10 (implicit).**  The two fields of a successful analysis are
consistent even though they come from two separate closure traversals
with independent caches: `oleanPaths` is exactly the sorted three-suffix
expansion of the resolved module set, and `allModules` is that same set
sorted, so `oleanPaths.length = 3 * allModules.length`. -/
theorem c10_oleanPaths_three_per_module (fuel : Nat) (code : String) (mods : Modules)
    (ds : DependencySet) (h : analyzeCodeDependencies fuel code mods = some ds) :
    ds.oleanPaths.length = 3 * ds.allModules.length ∧
    ∃ A c, resolveLoop fuel (seedsOf code) mods [] [] = some (A, c) ∧
      ds.allModules = sortStrings A ∧ ds.oleanPaths = sortStrings (expandModulePaths A) := by
  obtain ⟨A, c, hres, _, _, hall, hpaths⟩ := analyzeCodeDependencies_inv h
  have hp : ds.oleanPaths = sortStrings (expandModulePaths A) := by
    unfold getRequiredOleanPaths at hpaths
    rw [hres] at hpaths
    simp only [Option.some.injEq] at hpaths
    exact hpaths.symm
  refine ⟨?_, A, c, hres, hall, hp⟩
  rw [hp, hall, length_sortStrings, length_sortStrings, length_expandModulePaths]

/-- Witness for C10: six paths for two modules. -/
theorem c10_witness : ∃ ds,
    analyzeCodeDependencies 3 ""
      [("Init", ⟨"Init", ["Init.Core"]⟩), ("Init.Core", ⟨"Init/Core", []⟩)] = some ds ∧
    ds.oleanPaths.length = 3 * ds.allModules.length := by
  have h : analyzeCodeDependencies 3 ""
      [("Init", ⟨"Init", ["Init.Core"]⟩), ("Init.Core", ⟨"Init/Core", []⟩)] =
      some ⟨[], ["Init"], ["Init", "Init.Core"],
        ["Init.olean", "Init.olean.private", "Init.olean.server",
         "Init/Core.olean", "Init/Core.olean.private", "Init/Core.olean.server"]⟩ := by
    decide
  exact ⟨_, h, (c10_oleanPaths_three_per_module 3 "" _ _ h).1⟩

/-- **C2, counterexample.**  With a manifest in which `Init.Data.String`
declares an import, `getRequiredOleanPaths(['Init.Data.String'])` returns
six paths — the transitive closure is expanded, not just the input
module — so the claimed exact three-path result is false as stated. -/
theorem c2_counterexample :
    getRequiredOleanPaths 3 ["Init.Data.String"]
      [("Init.Data.String", ⟨"Init/Data/String", ["Init.Prelude"]⟩),
       ("Init.Prelude", ⟨"Init/Prelude", []⟩)] =
      some ["Init/Data/String.olean", "Init/Data/String.olean.private",
        "Init/Data/String.olean.server", "Init/Prelude.olean",
        "Init/Prelude.olean.private", "Init/Prelude.olean.server"] ∧
    getRequiredOleanPaths 3 ["Init.Data.String"]
      [("Init.Data.String", ⟨"Init/Data/String", ["Init.Prelude"]⟩),
       ("Init.Prelude", ⟨"Init/Prelude", []⟩)] ≠
      some ["Init/Data/String.olean", "Init/Data/String.olean.private",
        "Init/Data/String.olean.server"] := by
  exact ⟨by decide, by decide⟩

/-- **C2, amended.**  When the input module resolves to no further
dependencies (for instance because it is absent from the manifest),
`getRequiredOleanPaths(['Init.Data.String'])` returns exactly the three
paths `Init/Data/String.olean`, `Init/Data/String.olean.private`,
`Init/Data/String.olean.server`, lexicographically sorted; in general the
result is, per module of the resolved closure `allModules`, the base path
(dots replaced by slashes) with the primary suffix and the two variant
suffixes, lexicographically sorted — three paths per closure module. -/
theorem c2_amended :
    (∀ (fuel : Nat) (mods : Modules), lookupMod mods "Init.Data.String" = none →
      getRequiredOleanPaths (fuel + 1) ["Init.Data.String"] mods =
        some ["Init/Data/String.olean", "Init/Data/String.olean.private",
          "Init/Data/String.olean.server"]) ∧
    (∀ (fuel : Nat) (imports : List String) (mods : Modules) (l : List String),
      getRequiredOleanPaths fuel imports mods = some l →
      ∃ A c, resolveLoop fuel imports mods [] [] = some (A, c) ∧
        l = sortStrings (expandModulePaths A) ∧ StrSorted l ∧ l.length = 3 * A.length) := by
  constructor
  · intro fuel mods hmod
    have hseed : getTransitiveDeps (fuel + 1) "Init.Data.String" mods ⟨[], []⟩ =
        some ([], ⟨[], ["Init.Data.String"]⟩) := by
      rw [getTransitiveDeps_succ]
      rw [if_neg (List.not_mem_nil _)]
      simp [lookupC, hmod, addMod]
    simp only [getRequiredOleanPaths, resolveLoop, hseed]
    decide
  · intro fuel imports mods l h
    unfold getRequiredOleanPaths at h
    split at h
    · exact absurd h (by simp)
    · rename_i A c hres
      cases h
      exact ⟨A, c, hres, rfl, sorted_sortStrings _,
        by rw [length_sortStrings, length_expandModulePaths]⟩

/-- Witness for the amended C2: the empty manifest gives the three sorted
paths. -/
theorem c2_witness :
    getRequiredOleanPaths 1 ["Init.Data.String"] [] =
      some ["Init/Data/String.olean", "Init/Data/String.olean.private",
        "Init/Data/String.olean.server"] ∧
    StrSorted ["Init/Data/String.olean", "Init/Data/String.olean.private",
      "Init/Data/String.olean.server"] := by
  have h1 := c2_amended.1 0 [] rfl
  obtain ⟨A, c, _, heq, hsort, _⟩ := c2_amended.2 1 ["Init.Data.String"] [] _ h1
  exact ⟨h1, hsort⟩

/-- **C5.**  Cycle safety of the transitive-closure computation: the
recursion terminates on every manifest (any fuel above the number of
unvisited names of an imports-closed universe suffices, cyclic import
graphs included); a module already in the visited set is not expanded
again — the call returns its cached set (or the empty set) and leaves the
state untouched; and on the concrete two-module cycle `A→B→A` the closure
of `A` is `["B", "A"]`, containing `B` exactly once. -/
theorem c5_cycle_safe :
    (∀ (mods : Modules) (U : List String) (m : String) (st : DepState) (fuel : Nat),
       importsClosed mods U → m ∈ U → unvisited U st.visited < fuel →
       (getTransitiveDeps fuel m mods st).isSome = true) ∧
    (∀ (fuel : Nat) (m : String) (mods : Modules) (st : DepState), m ∈ st.visited →
       getTransitiveDeps (fuel + 1) m mods st = some ((lookupC st.cache m).getD [], st)) ∧
    getTransitiveDeps 3 "A" [("A", ⟨"A", ["B"]⟩), ("B", ⟨"B", ["A"]⟩)] ⟨[], []⟩ =
      some (["B", "A"], ⟨[("A", ["B", "A"]), ("B", ["A"])], ["A", "B"]⟩) ∧
    List.count "B" ["B", "A"] = 1 := by
  refine ⟨?_, ?_, by decide, by decide⟩
  · intro mods U m st fuel hU hm hc
    exact fuel_sufficient hU fuel m st hm hc
  · intro fuel m mods st hm
    rw [getTransitiveDeps_succ, if_pos hm]

/-- Witness for C5: termination discharged on the concrete cycle, and a
no-op revisit on a concrete visited state. -/
theorem c5_witness :
    (getTransitiveDeps 3 "A" [("A", ⟨"A", ["B"]⟩), ("B", ⟨"B", ["A"]⟩)] ⟨[], []⟩).isSome
      = true ∧
    getTransitiveDeps 1 "B" [("B", ⟨"B", ["A"]⟩)] ⟨[("B", ["A"])], ["B"]⟩ =
      some (["A"], ⟨[("B", ["A"])], ["B"]⟩) := by
  constructor
  · refine c5_cycle_safe.1 [("A", ⟨"A", ["B"]⟩), ("B", ⟨"B", ["A"]⟩)] ["A", "B"] "A"
      ⟨[], []⟩ 3 ?_ (by decide) (by decide)
    intro k info hk i hi
    simp only [lookupMod] at hk
    split at hk
    · cases hk
      simp only [List.mem_singleton] at hi
      subst hi
      simp
    · split at hk
      · cases hk
        simp only [List.mem_singleton] at hi
        subst hi
        simp
      · exact absurd hk (by simp [lookupMod])
  · exact c5_cycle_safe.2.1 0 "B" [("B", ⟨"B", ["A"]⟩)] ⟨[("B", ["A"])], ["B"]⟩ (by decide)

end LeanLoader


namespace LeanLoader

/-- **C3, counterexample.**  After a failed `loadManifest`, the rejected
promise remains cached in `manifestPromise`: a second call — even with
the network now healthy — performs *no* fresh fetch and returns the same
error, contradicting the claimed retryability. -/
theorem c3_counterexample :
    (loadManifest ⟨none, none⟩
      (Except.error "Failed to load lean-manifest.json")).2.1.manifestPromise =
      some (Except.error "Failed to load lean-manifest.json") ∧
    (loadManifest
      (loadManifest ⟨none, none⟩ (Except.error "Failed to load lean-manifest.json")).2.1
      (Except.ok ⟨"1", "now", []⟩)).2.2 = false ∧
    (loadManifest
      (loadManifest ⟨none, none⟩ (Except.error "Failed to load lean-manifest.json")).2.1
      (Except.ok ⟨"1", "now", []⟩)).1 =
      Except.error "Failed to load lean-manifest.json" := by
  exact ⟨rfl, rfl, rfl⟩

/-- **C3, amended.**  A failing `loadManifest` call rejects with the
descriptive error, but it *poisons* the loader: the rejected promise is
stored in `manifestPromise` and never cleared, so every subsequent call
returns the same rejection without performing a network fetch. -/
theorem c3_amended :
    (∀ e : String, loadManifest ⟨none, none⟩ (Except.error e) =
      (Except.error e, ⟨none, some (Except.error e)⟩, true)) ∧
    (∀ (st : LoaderState) (e : String) (net : FetchManifestOutcome),
      st.manifest = none → st.manifestPromise = some (Except.error e) →
      loadManifest st net = (Except.error e, st, false)) := by
  constructor
  · intro e
    rfl
  · intro st e net h1 h2
    unfold loadManifest
    rw [h1, h2]

/-- Witness for the amended C3 at a concrete poisoned state. -/
theorem c3_witness :
    loadManifest ⟨none, some (Except.error "boom")⟩ (Except.ok ⟨"1", "now", []⟩) =
      (Except.error "boom", ⟨none, some (Except.error "boom")⟩, false) :=
  c3_amended.2 ⟨none, some (Except.error "boom")⟩ "boom" (Except.ok ⟨"1", "now", []⟩) rfl rfl

/-- **C4, counterexample.**  `fetchCompleteFileList` does *not* guard
against duplicate concurrent population: in the interleaving where a
second call starts while the first is awaiting its fetch, two network
fetches are issued, not one as the claim demands. -/
theorem c4_counterexample :
    (flConcurrentScenario ["Init.olean"]).1 = 2 ∧
    (flConcurrentScenario ["Init.olean"]).1 ≠ 1 := by
  exact ⟨rfl, by decide⟩

/-- **C4, amended.**  Of the two one-time singletons, only the Manifest
loader dedupes concurrent callers: while a `loadManifest` fetch is in
flight a second call awaits the same stored promise, exactly one fetch is
issued, and the shared promise settles once with the fetched outcome for
both callers.  `fetchCompleteFileList` has no in-flight guard — its cache
is written only after the awaited fetch — so a concurrent second call
issues a second network fetch (both callers still receive the listing). -/
theorem c4_amended :
    (∀ outcome : Except String Manifest,
      (mlConcurrentScenario outcome).2.2.fetchCount = 1 ∧
      (mlConcurrentScenario outcome).1 = (mlConcurrentScenario outcome).2.1 ∧
      (mlConcurrentScenario outcome).2.2.heap.get? (mlConcurrentScenario outcome).1 =
        some (some outcome)) ∧
    (∀ l : List String,
      (flConcurrentScenario l).1 = 2 ∧
      (flConcurrentScenario l).2.1 = l ∧ (flConcurrentScenario l).2.2 = l) := by
  constructor
  · intro outcome
    exact ⟨rfl, rfl, rfl⟩
  · intro l
    exact ⟨rfl, rfl, rfl⟩

/-- **C6, counterexample.**  A buffer whose first 4 bytes exactly match
the magic signature is *not* always accepted: an 8-byte buffer beginning
with the magic is rejected by the length check, contradicting the
"valid regardless of trailing content" clause as stated. -/
theorem c6_counterexample :
    (OLEAN_MAGIC ++ [0, 0, 0, 0]).take 4 = OLEAN_MAGIC ∧
    isValidOlean (OLEAN_MAGIC ++ [0, 0, 0, 0]) = false := by
  exact ⟨by decide, by decide⟩

/-- **C6, amended.**  A buffer shorter than the 32-byte minimum header
size is always invalid; a buffer of at least 32 bytes whose first 4 bytes
match the magic signature is valid regardless of the trailing content;
and overwriting any one of the first 4 bytes of an accepted buffer with a
different value makes the validator reject it. -/
theorem c6_amended :
    (∀ b : List Nat, b.length < 32 → isValidOlean b = false) ∧
    (∀ b : List Nat, 32 ≤ b.length → b.take 4 = OLEAN_MAGIC → isValidOlean b = true) ∧
    (∀ (b : List Nat) (i : Nat), isValidOlean b = true → i < 4 → ∀ v, v ≠ b.getD i 0 →
      isValidOlean (b.set i v) = false) := by
  refine ⟨?_, ?_, ?_⟩
  · intro b hb
    unfold isValidOlean
    rw [if_pos hb]
  · intro b hlen htake
    unfold isValidOlean
    rw [if_neg (by omega)]
    rw [List.all_eq_true]
    intro i hi
    rw [List.mem_range] at hi
    have : b.getD i 0 = OLEAN_MAGIC.getD i 0 := by
      have h4 : (b.take 4).getD i 0 = b.getD i 0 := by
        rw [List.getD_eq_getElem?_getD, List.getD_eq_getElem?_getD, List.getElem?_take,
          if_pos hi]
      rw [← h4, htake]
    simp only [decide_eq_true_eq]
    exact this
  · intro b i hv hi v hne
    have hblen : ¬ b.length < 32 := by
      by_contra hc
      unfold isValidOlean at hv
      rw [if_pos hc] at hv
      exact Bool.noConfusion hv
    have hmag : b.getD i 0 = OLEAN_MAGIC.getD i 0 := by
      unfold isValidOlean at hv
      rw [if_neg hblen, List.all_eq_true] at hv
      have := hv i (by rw [List.mem_range]; exact hi)
      simpa using this
    unfold isValidOlean
    rw [if_neg (by rw [List.length_set]; exact hblen)]
    rw [Bool.eq_false_iff]
    intro hall
    rw [List.all_eq_true] at hall
    have := hall i (by rw [List.mem_range]; exact hi)
    have hset : (b.set i v).getD i 0 = v := by
      rw [List.getD_eq_getElem?_getD, List.getElem?_set_self]
      · rfl
      · omega
    simp only [hset] at this
    rw [hmag] at hne
    simp only [decide_eq_true_eq] at this
    exact hne this

end LeanLoader


namespace LeanLoader

/-- Witness for the amended C6: a 32-byte magic-headed buffer is valid,
and overwriting its first byte with a non-magic value invalidates it. -/
theorem c6_witness :
    isValidOlean (OLEAN_MAGIC ++ List.replicate 28 0) = true ∧
    isValidOlean ((OLEAN_MAGIC ++ List.replicate 28 0).set 0 0) = false := by
  constructor
  · exact c6_amended.2.1 (OLEAN_MAGIC ++ List.replicate 28 0) (by decide) (by decide)
  · exact c6_amended.2.2 (OLEAN_MAGIC ++ List.replicate 28 0) 0
      (c6_amended.2.1 (OLEAN_MAGIC ++ List.replicate 28 0) (by decide) (by decide))
      (by decide) 0 (by decide)

/-- **C7.**  For every path list and per-path network outcome assignment:
the map returned by `fetchOleanFiles` contains exactly the paths that
were retrievable (ok response) and passed validation, with the fetched
bytes; `onProgress` is invoked exactly once per queued path — `total`
times in all, with the successive `loaded` values `1, …, total` — and
the final invocation reports `loaded = total`. -/
theorem c7_fetch_result_and_progress (paths : List String) (net : String → FetchOutcome) :
    (∀ p v, getAssoc (fetchOleanFiles paths net).1 p = some v ↔
      (p ∈ paths ∧ net p = FetchOutcome.ok v ∧ isValidOlean v = true)) ∧
    (fetchOleanFiles paths net).2 =
      (List.range paths.length).map (fun i => (i + 1, paths.length)) ∧
    (paths ≠ [] →
      (fetchOleanFiles paths net).2.getLast? = some (paths.length, paths.length)) := by
  have hprog : (fetchOleanFiles paths net).2 =
      (List.range paths.length).map (fun i => (i + 1, paths.length)) := by
    unfold fetchOleanFiles
    rw [fetchLoop_prog]
    simp
  refine ⟨?_, hprog, ?_⟩
  · intro p v
    unfold fetchOleanFiles
    rw [fetchLoop_files, getAssoc_foldl_fetch]
    constructor
    · intro h
      by_cases hc : p ∈ paths ∧ (okData net p).isSome
      · rw [if_pos hc] at h
        refine ⟨hc.1, ?_⟩
        unfold okData at h
        cases hnet : net p with
        | ok d =>
          rw [hnet] at h
          cases hvd : isValidOlean d with
          | true =>
            simp only [hvd, if_true] at h
            cases h
            exact ⟨rfl, hvd⟩
          | false =>
            simp [hvd] at h
        | notOk =>
          rw [hnet] at h
          exact Option.noConfusion h
        | netError =>
          rw [hnet] at h
          exact Option.noConfusion h
      · rw [if_neg hc] at h
        exact absurd h (by simp [getAssoc])
    · rintro ⟨hp, hnet, hv⟩
      have hok : okData net p = some v := by
        simp [okData, hnet, hv]
      rw [if_pos ⟨hp, by rw [hok]; rfl⟩, hok]
  · intro hne
    rw [hprog]
    have hpos : 0 < paths.length := List.length_pos.mpr hne
    have hlen : ((List.range paths.length).map
        (fun i => (i + 1, paths.length))).length = paths.length := by
      rw [List.length_map, List.length_range]
    rw [List.getLast?_eq_getElem?, hlen, List.getElem?_map, List.getElem?_range (by omega)]
    have : paths.length - 1 + 1 = paths.length := Nat.succ_pred_eq_of_pos hpos
    simp [this]

/-- Witness for C7 on a concrete two-path batch with one valid artifact
and one 404. -/
theorem c7_witness :
    getAssoc (fetchOleanFiles ["a", "b"]
      (fun p => if p = "a" then FetchOutcome.ok (OLEAN_MAGIC ++ List.replicate 28 0)
        else FetchOutcome.notOk)).1 "a" = some (OLEAN_MAGIC ++ List.replicate 28 0) ∧
    (fetchOleanFiles ["a", "b"]
      (fun p => if p = "a" then FetchOutcome.ok (OLEAN_MAGIC ++ List.replicate 28 0)
        else FetchOutcome.notOk)).2.getLast? = some (2, 2) := by
  constructor
  · exact ((c7_fetch_result_and_progress ["a", "b"]
      (fun p => if p = "a" then FetchOutcome.ok (OLEAN_MAGIC ++ List.replicate 28 0)
        else FetchOutcome.notOk)).1 "a" (OLEAN_MAGIC ++ List.replicate 28 0)).mpr
      ⟨by decide, rfl, by decide⟩
  · exact (c7_fetch_result_and_progress ["a", "b"]
      (fun p => if p = "a" then FetchOutcome.ok (OLEAN_MAGIC ++ List.replicate 28 0)
        else FetchOutcome.notOk)).2.2 (by decide)

end LeanLoader

namespace TarCodec

/-!
### Supporting lemmas for the tar codec claims
-/

theorem store_getD_append_left (s t : Store) (r : Nat) (h : r < s.length) :
    (s ++ t).getD r [] = s.getD r [] := by
  rw [List.getD_eq_getElem?_getD, List.getD_eq_getElem?_getD, List.getElem?_append_left h]

theorem store_getD_append_right (s t : Store) (r : Nat) (h : s.length ≤ r) :
    (s ++ t).getD r [] = t.getD (r - s.length) [] := by
  rw [List.getD_eq_getElem?_getD, List.getD_eq_getElem?_getD, List.getElem?_append_right h]

theorem readB_append (s ext : Store) (v : TarView) (hv : v.ref < s.length) (i : Nat) :
    readB (s ++ ext) v i = readB s v i := by
  unfold readB
  rw [store_getD_append_left s ext v.ref hv]

theorem viewBytes_append (s ext : Store) (v : TarView) (hv : v.ref < s.length) :
    viewBytes (s ++ ext) v = viewBytes s v := by
  unfold viewBytes
  exact List.map_congr_left (fun i _ => readB_append s ext v hv i)

theorem store_getD_writeStore_ne (s : Store) (r i val t : Nat) (h : r ≠ t) :
    (writeStore s r i val).getD t [] = s.getD t [] := by
  unfold writeStore
  rw [List.getD_eq_getElem?_getD, List.getElem?_set_ne h]
  exact (List.getD_eq_getElem?_getD s t []).symm

theorem viewBytes_writeStore_ne (s : Store) (v : TarView) (r i val : Nat) (h : r ≠ v.ref) :
    viewBytes (writeStore s r i val) v = viewBytes s v := by
  unfold viewBytes
  refine List.map_congr_left (fun j _ => ?_)
  unfold readB
  rw [store_getD_writeStore_ne s r i val v.ref h]

theorem mem_setFile (files : List (List Nat × TarView)) (nm : List Nat) (dv : TarView)
    (p : List Nat × TarView) (h : p ∈ setFile files nm dv) :
    p = (nm, dv) ∨ p ∈ files := by
  induction files with
  | nil =>
    left
    simpa [setFile] using h
  | cons q rest ih =>
    rw [setFile] at h
    by_cases hq : q.1 = nm
    · rw [if_pos hq] at h
      rcases List.mem_cons.mp h with heq | hin
      · left; exact heq
      · right; exact List.mem_cons_of_mem q hin
    · rw [if_neg hq] at h
      rcases List.mem_cons.mp h with heq | hin
      · right
        rw [heq]
        exact List.mem_cons_self q rest
      · rcases ih hin with h1 | h2
        · left; exact h1
        · right; exact List.mem_cons_of_mem q h2

theorem jsIdx_le (x : Int) (len : Nat) : jsIdx x len ≤ len := by
  unfold jsIdx
  split
  · omega
  · exact Nat.min_le_right _ _

theorem map_getD_range (c : List Nat) :
    (List.range c.length).map (fun i => c.getD i 0) = c := by
  apply List.ext_getElem
  · simp
  · intro i h1 h2
    simp [List.getD_eq_getElem?_getD, List.getElem?_eq_getElem h2]

theorem viewBytes_fresh (s : Store) (c : List Nat) :
    viewBytes (s ++ [c]) ⟨s.length, 0, c.length⟩ = c := by
  unfold viewBytes readB
  have hget : (s ++ [c]).getD s.length [] = c := by
    rw [store_getD_append_right s [c] s.length (le_refl _)]
    simp
  simp only [hget, Nat.zero_add]
  exact map_getD_range c

theorem length_viewBytes (s : Store) (v : TarView) : (viewBytes s v).length = v.len := by
  simp [viewBytes]

theorem viewBytes_getD (s : Store) (v : TarView) (j : Nat) (hj : j < v.len) :
    (viewBytes s v).getD j 0 = readB s v j := by
  unfold viewBytes
  rw [List.getD_eq_getElem?_getD, List.getElem?_map, List.getElem?_range hj]
  rfl

theorem hdrByte_congr (s1 s2 : Store) (v1 v2 : TarView) (offset : Int)
    (hl : v1.len = v2.len) (hrd : ∀ j, j < v2.len → readB s1 v1 j = readB s2 v2 j) :
    hdrByte s1 v1 offset = hdrByte s2 v2 offset := by
  funext i
  simp only [hdrByte]
  rw [hl]
  split
  · rename_i hi
    refine hrd _ ?_
    have h1 := jsIdx_le (offset + 512) v2.len
    omega
  · rfl

theorem sliceBytes_congr (s1 s2 : Store) (v1 v2 : TarView) (b e : Nat)
    (he : e ≤ v2.len) (hrd : ∀ j, j < v2.len → readB s1 v1 j = readB s2 v2 j) :
    sliceBytes s1 v1 b e = sliceBytes s2 v2 b e := by
  unfold sliceBytes
  refine List.map_congr_left (fun i hi => ?_)
  rw [List.mem_range] at hi
  exact hrd (b + i) (by omega)

theorem tarStep_congr (s1 s2 : Store) (v1 v2 : TarView) (offset : Int)
    (hl : v1.len = v2.len) (hrd : ∀ j, j < v2.len → readB s1 v1 j = readB s2 v2 j) :
    tarStep s1 v1 offset = tarStep s2 v2 offset := by
  have hh := hdrByte_congr s1 s2 v1 v2 offset hl hrd
  simp only [tarStep]
  rw [hl, hh]
  split
  · rfl
  · split
    · rw [sliceBytes_congr s1 s2 v1 v2 _ _ (jsIdx_le _ _) hrd]
    · rfl

theorem setFile_map_congr (t1 t2 : Store) (nm : List Nat) (d1 d2 : TarView)
    (hd : viewBytes t1 d1 = viewBytes t2 d2) :
    ∀ (f1 f2 : List (List Nat × TarView)),
    f1.map (fun p => (p.1, viewBytes t1 p.2)) = f2.map (fun p => (p.1, viewBytes t2 p.2)) →
    (setFile f1 nm d1).map (fun p => (p.1, viewBytes t1 p.2)) =
      (setFile f2 nm d2).map (fun p => (p.1, viewBytes t2 p.2))
  | [], [], _ => by simp [setFile, hd]
  | [], q2 :: r2, h => by simp at h
  | q1 :: r1, [], h => by simp at h
  | q1 :: r1, q2 :: r2, h => by
    simp only [List.map_cons, List.cons.injEq] at h
    obtain ⟨hhead, htail⟩ := h
    injection hhead with h11 h12
    rw [setFile, setFile]
    by_cases hq : q1.1 = nm
    · rw [if_pos hq, if_pos (h11.symm.trans hq)]
      simp only [List.map_cons]
      rw [hd, htail]
    · rw [if_neg hq, if_neg (fun hc => hq (h11.trans hc))]
      simp only [List.map_cons]
      rw [h11, h12, setFile_map_congr t1 t2 nm d1 d2 hd r1 r2 htail]

theorem parseTarLoop_frame (v : TarView) (fuel : Nat) :
    ∀ (s : Store) (offset : Int) (files : List (List Nat × TarView)) (s' : Store)
      (files' : List (List Nat × TarView)),
    parseTarLoop v fuel s offset files = some (s', files') →
    (∃ ext, s' = s ++ ext) ∧
    (∀ n d, (n, d) ∈ files' → (n, d) ∈ files ∨
      (s.length ≤ d.ref ∧ d.ref < s'.length ∧ d.start = 0 ∧
        d.len = (s'.getD d.ref []).length)) := by
  induction fuel with
  | zero =>
    intro s offset files s' files' h
    simp [parseTarLoop] at h
  | succ n ih =>
    intro s offset files s' files' h
    simp only [parseTarLoop] at h
    by_cases hoff : offset < (v.len : Int) - 512
    · rw [if_pos hoff] at h
      cases hts : tarStep s v offset with
      | stop =>
        simp only [hts] at h
        cases h
        exact ⟨⟨[], by simp⟩, fun nn d hm => Or.inl hm⟩
      | emit name copied next =>
        simp only [hts] at h
        obtain ⟨⟨ext2, hs'⟩, hf⟩ := ih (s ++ [copied]) next
          (setFile files name ⟨s.length, 0, copied.length⟩) s' files' h
        constructor
        · exact ⟨[copied] ++ ext2, by rw [hs', List.append_assoc]⟩
        · intro nn d hmem
          rcases hf nn d hmem with hin | ⟨ha, hb, hc, hd2⟩
          · rcases mem_setFile files name ⟨s.length, 0, copied.length⟩ (nn, d) hin with
              heq | hin2
            · right
              injection heq with ha1 hb1
              subst hb1
              refine ⟨Nat.le_refl _, ?_, rfl, ?_⟩
              · show s.length < s'.length
                rw [hs']
                simp only [List.length_append, List.length_cons, List.length_nil]
                omega
              · show copied.length = (s'.getD s.length []).length
                have hgd : s'.getD s.length [] = copied := by
                  rw [hs']
                  rw [store_getD_append_left _ ext2 s.length
                    (by simp only [List.length_append, List.length_cons, List.length_nil]; omega)]
                  rw [store_getD_append_right s [copied] s.length (le_refl _)]
                  simp
                rw [hgd]
            · left; exact hin2
          · right
            refine ⟨?_, hb, hc, hd2⟩
            have hlen : (s ++ [copied]).length = s.length + 1 := by simp
            omega
      | skip next =>
        simp only [hts] at h
        exact ih s next files s' files' h
    · rw [if_neg hoff] at h
      cases h
      exact ⟨⟨[], by simp⟩, fun nn d hm => Or.inl hm⟩

theorem parseTarLoop_det (v1 v2 : TarView) (fuel : Nat) :
    ∀ (s1 s2 : Store) (offset : Int) (files1 files2 : List (List Nat × TarView)),
    v1.len = v2.len →
    (∀ j, j < v2.len → readB s1 v1 j = readB s2 v2 j) →
    v1.ref < s1.length → v2.ref < s2.length →
    (∀ p ∈ files1, p.2.ref < s1.length) →
    (∀ p ∈ files2, p.2.ref < s2.length) →
    files1.map (fun p => (p.1, viewBytes s1 p.2)) =
      files2.map (fun p => (p.1, viewBytes s2 p.2)) →
    Option.map (fun r => r.2.map (fun p => (p.1, viewBytes r.1 p.2)))
        (parseTarLoop v1 fuel s1 offset files1) =
      Option.map (fun r => r.2.map (fun p => (p.1, viewBytes r.1 p.2)))
        (parseTarLoop v2 fuel s2 offset files2) := by
  induction fuel with
  | zero =>
    intro s1 s2 offset files1 files2 _ _ _ _ _ _ _
    simp [parseTarLoop]
  | succ n ih =>
    intro s1 s2 offset files1 files2 hl hrd hv1 hv2 hf1 hf2 hmap
    simp only [parseTarLoop]
    rw [hl]
    by_cases hoff : offset < (v2.len : Int) - 512
    · rw [if_pos hoff, if_pos hoff]
      rw [tarStep_congr s1 s2 v1 v2 offset hl hrd]
      cases hts : tarStep s2 v2 offset with
      | stop =>
        simp only [Option.map_some']
        exact congrArg some hmap
      | emit name copied next =>
        refine ih (s1 ++ [copied]) (s2 ++ [copied]) next _ _ hl ?_ ?_ ?_ ?_ ?_ ?_
        · intro j hj
          rw [readB_append s1 [copied] v1 hv1, readB_append s2 [copied] v2 hv2]
          exact hrd j hj
        · simp only [List.length_append, List.length_cons, List.length_nil]
          omega
        · simp only [List.length_append, List.length_cons, List.length_nil]
          omega
        · intro p hp
          rcases mem_setFile files1 name ⟨s1.length, 0, copied.length⟩ p hp with heq | hin
          · have h2 : p.2 = ⟨s1.length, 0, copied.length⟩ := congrArg Prod.snd heq
            rw [h2]
            show s1.length < (s1 ++ [copied]).length
            simp only [List.length_append, List.length_cons, List.length_nil]
            omega
          · have := hf1 p hin
            simp only [List.length_append, List.length_cons, List.length_nil]
            omega
        · intro p hp
          rcases mem_setFile files2 name ⟨s2.length, 0, copied.length⟩ p hp with heq | hin
          · have h2 : p.2 = ⟨s2.length, 0, copied.length⟩ := congrArg Prod.snd heq
            rw [h2]
            show s2.length < (s2 ++ [copied]).length
            simp only [List.length_append, List.length_cons, List.length_nil]
            omega
          · have := hf2 p hin
            simp only [List.length_append, List.length_cons, List.length_nil]
            omega
        · have e1 : files1.map (fun p => (p.1, viewBytes (s1 ++ [copied]) p.2)) =
              files1.map (fun p => (p.1, viewBytes s1 p.2)) :=
            List.map_congr_left
              (fun p hp => by rw [viewBytes_append s1 [copied] p.2 (hf1 p hp)])
          have e2 : files2.map (fun p => (p.1, viewBytes (s2 ++ [copied]) p.2)) =
              files2.map (fun p => (p.1, viewBytes s2 p.2)) :=
            List.map_congr_left
              (fun p hp => by rw [viewBytes_append s2 [copied] p.2 (hf2 p hp)])
          refine setFile_map_congr (s1 ++ [copied]) (s2 ++ [copied]) name _ _ ?_
            files1 files2 ?_
          · rw [viewBytes_fresh s1 copied, viewBytes_fresh s2 copied]
          · rw [e1, e2]
            exact hmap
      | skip next =>
        exact ih s1 s2 next files1 files2 hl hrd hv1 hv2 hf1 hf2 hmap
    · rw [if_neg hoff, if_neg hoff]
      simp only [Option.map_some']
      exact congrArg some hmap

end TarCodec

namespace TarCodec

set_option maxRecDepth 4000 in
set_option maxHeartbeats 1000000 in
/-- **C8, counterexample.**  The loop guard is
`offset < data.length - 512` (utils.ts:6), strict, so a well-formed
header block that begins exactly 512 bytes before the end of the buffer
is *not* processed, contradicting the claim: decoding the 512-byte
archive consisting solely of the well-formed nonzero header `c8hdr`
(name `"f"`, size 1, type flag `'0'`) emits no file and never reaches
the all-zero check, while the same header followed by its data block is
processed and emits the file. -/
theorem c8_counterexample :
    c8hdr.length = 512 ∧ c8hdr.getD 0 0 = 102 ∧
    parseTar [c8hdr] ⟨0, 0, 512⟩ 3 = some ([c8hdr], []) ∧
    parseTar [c8hdr ++ List.replicate 512 65] ⟨0, 0, 1024⟩ 3 =
      some ([c8hdr ++ List.replicate 512 65, [65]], [([102], ⟨1, 0, 1⟩)]) :=
  ⟨by simp only [c8hdr, List.length_set, List.length_replicate], by rfl, by rfl, by rfl⟩

/-- **C8, amended.**  The header loop of `parseTar` stops as soon as the
read position is at or beyond `data.length - 512` (so at most 512 bytes
remain — in particular a header block beginning exactly 512 bytes before
the end of the buffer is left unprocessed), and otherwise stops at a
512-byte header block that reads all zero. -/
theorem c8_amended (v : TarView) (fuel : Nat) (s : Store) (offset : Int)
    (files : List (List Nat × TarView)) :
    ((v.len : Int) - 512 ≤ offset →
      parseTarLoop v (fuel + 1) s offset files = some (s, files)) ∧
    (offset < (v.len : Int) - 512 →
      (List.range 512).all (fun i => hdrByte s v offset i == 0) = true →
      parseTarLoop v (fuel + 1) s offset files = some (s, files)) := by
  constructor
  · intro hle
    simp only [parseTarLoop]
    rw [if_neg (by omega)]
  · intro hlt hz
    have hstop : tarStep s v offset = .stop := by
      simp only [tarStep]
      rw [hz]
      simp
    simp only [parseTarLoop]
    rw [if_pos hlt, hstop]

set_option maxRecDepth 4000 in
set_option maxHeartbeats 1000000 in
/-- Witness for the amended C8: the loop returns immediately on a
512-byte buffer (read position at `length - 512` from the start), and
stops at the all-zero header block of a 2048-byte zero buffer. -/
theorem c8_witness :
    parseTarLoop ⟨0, 0, 512⟩ 1 [List.replicate 512 0] 0 [] =
      some ([List.replicate 512 0], []) ∧
    parseTarLoop ⟨0, 0, 2048⟩ 1 [List.replicate 2048 0] 0 [] =
      some ([List.replicate 2048 0], []) :=
  ⟨(c8_amended ⟨0, 0, 512⟩ 0 [List.replicate 512 0] 0 []).1 (by decide),
   (c8_amended ⟨0, 0, 2048⟩ 0 [List.replicate 2048 0] 0 []).2 (by decide) (by rfl)⟩

/-- **C9.**  Frame and effect of the tar codec, for every decode that
returns (the loop can fail to terminate only by fuel exhaustion, which
returns `none` and is outside this claim): the store is only ever
extended (`s' = s ++ ext`), so the input buffer — and every other
pre-existing buffer — is byte-for-byte unchanged and the input view
reads the same bytes after decoding; every returned entry is a view of a
whole freshly allocated buffer (`start = 0`, length of the full
buffer, reference at or past the old store top), so mutating any byte
of a returned buffer leaves the input view unchanged and mutating any
byte of the input buffer leaves every returned view unchanged; and two
decodes of inputs that read equal bytes return equal mappings
(same names, same byte contents, in the same order). -/
theorem c9_no_alias_deterministic (s : Store) (v : TarView) (fuel : Nat)
    (s' : Store) (files' : List (List Nat × TarView))
    (h : parseTar s v fuel = some (s', files')) (hv : v.ref < s.length) :
    (∃ ext, s' = s ++ ext) ∧
    viewBytes s' v = viewBytes s v ∧
    (∀ n d, (n, d) ∈ files' →
      s.length ≤ d.ref ∧ d.ref < s'.length ∧ d.start = 0 ∧
      d.len = (s'.getD d.ref []).length ∧
      (∀ i val, viewBytes (writeStore s' d.ref i val) v = viewBytes s' v) ∧
      (∀ i val, viewBytes (writeStore s' v.ref i val) d = viewBytes s' d)) ∧
    (∀ s2 v2 s2' files2, parseTar s2 v2 fuel = some (s2', files2) →
      v2.ref < s2.length → viewBytes s v = viewBytes s2 v2 →
      files'.map (fun p => (p.1, viewBytes s' p.2)) =
        files2.map (fun p => (p.1, viewBytes s2' p.2))) := by
  obtain ⟨⟨ext, hext⟩, hfresh⟩ := parseTarLoop_frame v fuel s 0 [] s' files' h
  refine ⟨⟨ext, hext⟩, ?_, ?_, ?_⟩
  · rw [hext]
    exact viewBytes_append s ext v hv
  · intro n d hmem
    rcases hfresh n d hmem with hin | ⟨h1, h2, h3, h4⟩
    · exact absurd hin (List.not_mem_nil _)
    · refine ⟨h1, h2, h3, h4, ?_, ?_⟩
      · intro i val
        exact viewBytes_writeStore_ne s' v d.ref i val (by omega)
      · intro i val
        exact viewBytes_writeStore_ne s' d v.ref i val (by omega)
  · intro s2 v2 s2' files2 h2 hv2 hvb
    have hl : v.len = v2.len := by
      have hq := congrArg List.length hvb
      simpa [viewBytes] using hq
    have hrd : ∀ j, j < v2.len → readB s v j = readB s2 v2 j := by
      intro j hj
      have hq := congrArg (fun l => l.getD j 0) hvb
      simp only at hq
      rw [viewBytes_getD s v j (by omega), viewBytes_getD s2 v2 j hj] at hq
      exact hq
    have hdet := parseTarLoop_det v v2 fuel s s2 0 [] [] hl hrd hv hv2
      (fun p hp => absurd hp (List.not_mem_nil p))
      (fun p hp => absurd hp (List.not_mem_nil p)) (by simp)
    unfold parseTar at h h2
    rw [h, h2] at hdet
    simp only [Option.map_some'] at hdet
    exact Option.some.inj hdet

set_option maxRecDepth 4000 in
set_option maxHeartbeats 1000000 in
/-- Witness for C9 on the concrete archive `c9buf` (one one-byte file
named `"f"`): the final store extends the input store. -/
theorem c9_witness :
    ∃ ext, [c9buf, [65]] = [c9buf] ++ ext :=
  (c9_no_alias_deterministic [c9buf] ⟨0, 0, 1536⟩ 2 [c9buf, [65]]
    [([102], ⟨1, 0, 1⟩)] (by rfl) (by decide)).1

end TarCodec
